import Mathlib

/-!
The package graphql-go-upload: the multipart middleware and the Upload scalar.

A shallow embedding of `middleware.go` and `scalar.go` (package `upload`).

* Go values of type `interface{}` are the inductive `Value`; a Go map is an
  association list read by its first matching key.
* Go maps are references.  `findFields` hands back a map of the operations
  tree and the callers assign into it; the embedding keeps the position of
  that map in the tree (`findFieldsLoc`) and replays the assignment there
  (`assignAt`).
* A Go panic is a value of `Panic`, returned in place of a result.
* `mime.ParseMediaType`, `filepath.Ext`, `filepath.Join` and the loop of
  `ioutil.TempFile` are written out from the Go sources.  What is left of the
  standard library and of the runtime (the JSON scanner and encoder, the lower
  case of runes outside ASCII, the random strings, the errors of the
  operating system, the order of `range` over a map, the scheduler) is a field
  of `Lib` or of `OS`, and every general theorem holds for all of them.
* `mapOperations` starts one goroutine per uploaded file and joins them with
  `wg.Wait()`.  Each worker is one step of the embedding, taken at any moment
  between its hand-off over `fileChannel` and the return of `wg.Wait()`; the
  field `schedule` of `Lib` chooses the moment.  The workers assign through
  the map they were handed.  Replaying the assignment at the position of that
  map is the same thing, because the loop and the workers store only strings
  and uploads: a map of the tree is never replaced by another map, and an
  assignment into a map that has been cut off from the tree is not seen.
  The loop and the workers are not synchronised in Go; the embedding takes
  their accesses to the tree one after the other, in every order.
-/

namespace Upload

/-! ## Values -/

/-- The Upload scalar of `scalar.go`. -/
structure GraphQLUpload where
  Filename : String
  MIMEType : String
  Filepath : String
deriving DecidableEq, Repr

/-- Go values held in an `interface{}`: what `encoding/json` decodes into
(`nil`, `bool`, `float64`, `string`, `[]interface{}`, `map[string]interface{}`),
the nil map, the two further dynamic types the package and its tests mention
(`[]map[string]interface{}` in `findFields`, `map[int]interface{}` in
`scalar_test.go`) and the `*GraphQLUpload` that the middleware stores. -/
inductive Value where
  | null
  | bool (b : Bool)
  | num (n : Rat)
  | str (s : String)
  | slice (xs : List Value)
  | obj (m : List (String × Value))
  | nilObj
  | objs (ms : List (List (String × Value)))
  | intMap (m : List (Int × Value))
  | upload (u : GraphQLUpload)

/-- A non-nil `map[string]interface{}`. -/
abbrev Object := List (String × Value)

/-- Reading `m[k]` with the comma-ok form: the first binding of `k`. -/
def Object.get? (m : Object) (k : String) : Option Value :=
  match m with
  | [] => none
  | (k1, v) :: rest => if k1 = k then some v else Object.get? rest k

/-- Reading `m[k]`: the value bound to `k`, or `nil` when there is none. -/
def Object.index (m : Object) (k : String) : Value :=
  (Object.get? m k).getD Value.null

/-- The assignment `m[k] = v`. -/
def Object.set (m : Object) (k : String) (v : Value) : Object :=
  match m with
  | [] => [(k, v)]
  | (k1, v1) :: rest => if k1 = k then (k, v) :: rest else (k1, v1) :: Object.set rest k v

/-- Go run-time panics that the package can raise. -/
inductive Panic where
  | typeAssertion
  | indexOutOfRange
  | nilMapAssign
deriving DecidableEq, Repr

/-- One step from a container to a part of it: a key of a map, or an index of
a `[]map[string]interface{}`. -/
inductive Step where
  | key (k : String)
  | idx (i : Nat)
deriving DecidableEq, Repr

/-! ## strings.Split -/

/-- Splitting a list of characters at every occurrence of `sep`. -/
def splitChars (sep : Char) : List Char → List (List Char)
  | [] => [[]]
  | c :: cs =>
    if c = sep then [] :: splitChars sep cs
    else
      match splitChars sep cs with
      | [] => [[c]]
      | seg :: rest => (c :: seg) :: rest

/-- The call `strings.Split(entry, ".")`. -/
def Split (entry : String) : List String :=
  (splitChars '.' entry.data).map String.mk

/-! ## findFields -/

/-! `arrayDepth`: how many `[]map[string]interface{}` nodes one descent can meet. -/

mutual
def Value.arrayDepth : Value → Nat
  | .objs ms => arrayDepthMaps ms + 1
  | .obj m => arrayDepthMap m
  | _ => 0
def arrayDepthMap : List (String × Value) → Nat
  | [] => 0
  | (_, v) :: m => max v.arrayDepth (arrayDepthMap m)
def arrayDepthMaps : List (List (String × Value)) → Nat
  | [] => 0
  | m :: ms => max (arrayDepthMap m) (arrayDepthMaps ms)
end

/-- The final `operations.(map[string]interface{})` of `findFields`. -/
def assertObject (loc : List Step) (ops : Value) : Except Panic (List Step × Value) :=
  match ops with
  | .obj m => .ok (loc, .obj m)
  | .nilObj => .ok (loc, .nilObj)
  | _ => .error Panic.typeAssertion

/-- The `for` loop of `findFields`, from index `i` on; `rest` is
`entryPaths[i:]`, `loc` the position of `ops` in the tree and `restart` the
recursive call `findFields(operations, entryPaths)`. -/
def findFieldsLoop (restart : List Step → Value → Option (Except Panic (List Step × Value))) :
    List String → Nat → List Step → Value → Option (Except Panic (List Step × Value))
  | [], _, loc, ops => some (assertObject loc ops)
  | s :: rest, i, loc, ops =>
    match ops with
    | .objs arr =>
      match arr.get? i with
      | some el => restart (loc ++ [Step.idx i]) (.obj el)
      | none => some (.error Panic.indexOutOfRange)
    | .obj m => findFieldsLoop restart rest (i + 1) (loc ++ [Step.key s]) (Object.index m s)
    | .nilObj => findFieldsLoop restart rest (i + 1) (loc ++ [Step.key s]) Value.null
    | _ => findFieldsLoop restart rest (i + 1) loc ops

/-- The function `findFields` with a bound on the nesting of its recursive
calls; `none` when the bound is used up. -/
def findFieldsFuel : Nat → List Step → Value → List String →
    Option (Except Panic (List Step × Value))
  | 0, _, _, _ => none
  | fuel + 1, loc, ops, entryPaths =>
    findFieldsLoop (fun l v => findFieldsFuel fuel l v entryPaths) entryPaths 0 loc ops

/-- The function `findFields`, with the position of the map it returns.  Every
recursive call is on an element of a `[]map[string]interface{}`, so
`arrayDepth + 1` calls suffice (`findFieldsFuel_total`). -/
def findFieldsLoc (ops : Value) (entryPaths : List String) : Except Panic (List Step × Value) :=
  match findFieldsFuel (ops.arrayDepth + 1) [] ops entryPaths with
  | some r => r
  | none => .error Panic.typeAssertion

/-- Forgetting the position of the map. -/
def fieldsOf (r : Except Panic (List Step × Value)) : Except Panic Value :=
  match r with
  | .ok (_, m) => .ok m
  | .error p => .error p

/-- The function `findFields`: the map it returns, or the panic it raises. -/
def findFields (ops : Value) (entryPaths : List String) : Except Panic Value :=
  fieldsOf (findFieldsLoc ops entryPaths)

/-- The value that the loop of `findFields` holds when it reaches index `i`,
if no `[]map[string]interface{}` made it return before. -/
def walkTo : Value → List String → Nat → Option Value
  | ops, _, 0 => some ops
  | _, [], _ + 1 => none
  | ops, s :: rest, i + 1 =>
    match ops with
    | .objs _ => none
    | .obj m => walkTo (Object.index m s) rest i
    | .nilObj => walkTo Value.null rest i
    | _ => walkTo ops rest i

/-- A value on which the loop of `findFields` stays until its end, where the
type assertion fails. -/
def Value.isStuck : Value → Bool
  | .obj _ => false
  | .nilObj => false
  | .objs _ => false
  | _ => true

/-- Following a dotted path key by key through nested objects. -/
def Value.getPath : Value → List String → Option Value
  | v, [] => some v
  | .obj m, k :: ks =>
    match Object.get? m k with
    | some c => c.getPath ks
    | none => none
  | _, _ :: _ => none

/-- The assignment `container[k] = v` replayed on the tree, `loc` being the
position of the container. -/
def assignAt : Value → List Step → String → Value → Value
  | .obj m, [], k, v => .obj (Object.set m k v)
  | .obj m, Step.key s :: rest, k, v =>
    match Object.get? m s with
    | some c => .obj (Object.set m s (assignAt c rest k v))
    | none => .obj m
  | .objs arr, Step.idx i :: rest, k, v =>
    match arr.get? i with
    | some el =>
      match assignAt (.obj el) rest k v with
      | .obj el2 => .objs (arr.set i el2)
      | _ => .objs arr
    | none => .objs arr
  | ops, _, _, _ => ops

/-! ## The standard library, as far as the package uses it -/

/-- A JSON text after `encoding/json` has scanned it.  A number carries the
`float64` it denotes, or `none` when `strconv.ParseFloat` rejects it as out of
range. -/
inductive JSON where
  | null
  | bool (b : Bool)
  | num (v : Option Rat)
  | str (s : String)
  | arr (xs : List JSON)
  | obj (kvs : List (String × JSON))

/-- A `map[string][]string` that is not nil; `none` is a nil slice. -/
abbrev Entries := List (String × Option (List String))

/-- The assignment `m[k] = v` on a `map[string][]string`. -/
def Entries.set (m : Entries) (k : String) (v : Option (List String)) : Entries :=
  match m with
  | [] => [(k, v)]
  | (k1, v1) :: rest => if k1 = k then (k, v) :: rest else (k1, v1) :: Entries.set rest k v

/-- The struct `graphqlParams` that `Handler` serializes. -/
structure graphqlParams where
  Variables : Value
  Query : Value
  Operations : Value
  Map : Option Entries

/-! ## mime.ParseMediaType -/

/-- The predicate `unicode.IsSpace`. -/
def isSpace (c : Char) : Bool :=
  decide (c.toNat = 0x09 ∨ c.toNat = 0x0a ∨ c.toNat = 0x0b ∨ c.toNat = 0x0c ∨ c.toNat = 0x0d ∨
    c.toNat = 0x20 ∨ c.toNat = 0x85 ∨ c.toNat = 0xa0 ∨ c.toNat = 0x1680 ∨
    (0x2000 ≤ c.toNat ∧ c.toNat ≤ 0x200a) ∨ c.toNat = 0x2028 ∨ c.toNat = 0x2029 ∨
    c.toNat = 0x202f ∨ c.toNat = 0x205f ∨ c.toNat = 0x3000)

/-- The call `strings.TrimLeftFunc(v, unicode.IsSpace)`. -/
def trimLeft (v : List Char) : List Char :=
  v.dropWhile isSpace

/-- The call `strings.TrimSpace(v)`. -/
def trimSpace (v : List Char) : List Char :=
  ((trimLeft v).reverse.dropWhile isSpace).reverse

/-- The function `isTSpecial` of `mime/grammar.go`. -/
def isTSpecial (c : Char) : Bool :=
  decide (c ∈ ['(', ')', '<', '>', '@', ',', ';', ':', '\\', '"', '/', '[', ']', '?', '='])

/-- The function `isTokenChar` of `mime/grammar.go`. -/
def isTokenChar (c : Char) : Bool :=
  decide (0x20 < c.toNat ∧ c.toNat < 0x7f) && !isTSpecial c

/-- The function `consumeToken` of `mime/mediatype.go`. -/
def consumeToken (v : List Char) : List Char × List Char :=
  (v.takeWhile isTokenChar, v.dropWhile isTokenChar)

/-- The loop of `consumeValue` over a quoted string, after the opening quote:
the value and what follows the closing quote, or `none` when the quote is not
closed on the line.  `pending` says that the character before was a backslash
whose fate depends on this one: before a tspecial it is dropped, before any
other character it is kept. -/
def consumeQuoted (acc : List Char) (pending : Bool) : List Char → Option (List Char × List Char)
  | [] => none
  | c :: rest =>
    if pending then
      if isTSpecial c then consumeQuoted (c :: acc) false rest
      else if c = '\r' ∨ c = '\n' then none
      else consumeQuoted (c :: '\\' :: acc) false rest
    else if c = '"' then some (acc.reverse, rest)
    else if c = '\\' then consumeQuoted acc true rest
    else if c = '\r' ∨ c = '\n' then none
    else consumeQuoted (c :: acc) false rest

/-- The function `consumeValue` of `mime/mediatype.go`. -/
def consumeValue (v : List Char) : List Char × List Char :=
  match v with
  | [] => ([], [])
  | c :: rest =>
    if c = '"' then
      match consumeQuoted [] false rest with
      | some r => r
      | none => ([], v)
    else consumeToken v

/-- What `mime.ParseMediaType` depends on beyond its argument:
* `unicodeLower`: `unicode.ToLower` on the runes outside ASCII;
* `equalDuplicates`: whether `mime.ParseMediaType` accepts a parameter name
  that comes twice with the same value (recent releases do, older ones reject
  every repeated name). -/
structure Mime where
  unicodeLower : Char → Char
  equalDuplicates : Bool

/-- The function `unicode.ToLower`. -/
def lowerRune (m : Mime) (c : Char) : Char :=
  if c.toNat < 128 then
    if 'A' ≤ c ∧ c ≤ 'Z' then Char.ofNat (c.toNat + 32) else c
  else m.unicodeLower c

/-- The function `checkMediaTypeDisposition` of `mime/mediatype.go`: whether
it returns nil. -/
def checkMediaTypeDisposition (s : List Char) : Bool :=
  match consumeToken s with
  | ([], _) => false
  | (_, []) => true
  | (_, c :: rest) =>
    if c = '/' then
      match consumeToken rest with
      | ([], _) => false
      | (_, []) => true
      | (_, _ :: _) => false
    else false

/-- The function `consumeMediaParam` of `mime/mediatype.go`: the name, the
value and the rest, or `none` where Go returns an empty name. -/
def consumeMediaParam (m : Mime) (v : List Char) : Option (List Char × List Char × List Char) :=
  match trimLeft v with
  | [] => none
  | c :: rest =>
    if c = ';' then
      match consumeToken (trimLeft rest) with
      | ([], _) => none
      | (param, rest1) =>
        match trimLeft rest1 with
        | [] => none
        | e :: rest2 =>
          if e = '=' then
            match consumeValue (trimLeft rest2) with
            | ([], rest3) =>
              if rest3 = trimLeft rest2 then none
              else some (param.map (lowerRune m), [], rest3)
            | (value, rest3) => some (param.map (lowerRune m), value, rest3)
          else none
    else none

/-- Reading `pmap[key]` with the comma-ok form. -/
def paramGet? (seen : List (List Char × List Char)) (key : List Char) : Option (List Char) :=
  match seen with
  | [] => none
  | (k, v) :: rest => if k = key then some v else paramGet? rest key

/-- The loop of `mime.ParseMediaType` over the parameters: the media type it
returns.  `seen` holds the parameters stored so far.  A parameter that does
not parse ends the loop with the media type (and `ErrInvalidMediaParameter`);
a repeated name ends it with the empty media type. -/
def paramLoop (m : Mime) (mediatype : String) :
    Nat → List (List Char × List Char) → List Char → String
  | 0, _, _ => mediatype
  | fuel + 1, seen, v =>
    match trimLeft v with
    | [] => mediatype
    | c :: v1 =>
      match consumeMediaParam m (c :: v1) with
      | none => mediatype
      | some (key, value, rest) =>
        match paramGet? seen key with
        | some old =>
          if m.equalDuplicates ∧ old = value then paramLoop m mediatype fuel ((key, value) :: seen) rest
          else ""
        | none => paramLoop m mediatype fuel ((key, value) :: seen) rest

/-- The first result of `mime.ParseMediaType(v)`.  Every turn of the loop
consumes a character, so `length + 1` turns suffice (`paramLoop_fuel`). -/
def ParseMediaType (m : Mime) (v : String) : String :=
  let base := v.data.takeWhile (fun c => c ≠ ';')
  let mediatype := trimSpace (base.map (lowerRune m))
  if checkMediaTypeDisposition mediatype then
    paramLoop m (String.mk mediatype) ((v.data.dropWhile (fun c => c ≠ ';')).length + 1) []
      (v.data.dropWhile (fun c => c ≠ ';'))
  else ""

/-- The media type of a header with its parameters ignored: the text before
the first `;`, in lower case and without the blanks around it. -/
def mediaTypeOf (m : Mime) (v : String) : String :=
  String.mk (trimSpace ((v.data.takeWhile (fun c => c ≠ ';')).map (lowerRune m)))

/-- The parameters of a header, from the first `;` on, up to the first one
that does not parse. -/
def paramsFrom (m : Mime) : Nat → List Char → List (List Char × List Char)
  | 0, _ => []
  | fuel + 1, v =>
    match trimLeft v with
    | [] => []
    | c :: v1 =>
      match consumeMediaParam m (c :: v1) with
      | none => []
      | some (key, value, rest) => (key, value) :: paramsFrom m fuel rest

/-- The parameters of a header. -/
def mediaParams (m : Mime) (v : String) : List (List Char × List Char) :=
  paramsFrom m ((v.data.dropWhile (fun c => c ≠ ';')).length + 1)
    (v.data.dropWhile (fun c => c ≠ ';'))

/-- Two parameters agree when their names differ, or when their values are
equal and the release accepts that. -/
def paramsAgree (m : Mime) (p q : List Char × List Char) : Prop :=
  p.1 ≠ q.1 ∨ (m.equalDuplicates = true ∧ p.2 = q.2)


/-- What the package takes from `mime`, `encoding/json` and the Go runtime.
* `mime`: what `mime.ParseMediaType` depends on;
* `jsonParse`: the value a JSON text denotes, `none` for a text that is not
  valid JSON;
* `jsonMarshal`: `json.Marshal` on a `graphqlParams`, `none` for an error;
* `jsonMarshalValue`, `jsonHydrate`: `json.Marshal` on a map and
  `json.Unmarshal` of the result into a `*GraphQLUpload`;
* `rangeOrder`: the order in which `range` visits the entries of a map;
* `schedule`: when the goroutines that `mapOperations` starts do their work:
  `schedule j` lists the workers that finish after turn `j` of the loop and
  before the next one, each by its place among the workers still running. -/
structure Lib where
  mime : Mime
  jsonParse : String → Option JSON
  jsonMarshal : graphqlParams → Option String
  jsonMarshalValue : Value → Option String
  jsonHydrate : String → GraphQLUpload → GraphQLUpload
  rangeOrder : Entries → Entries
  schedule : Nat → List Nat

/-! `json.Unmarshal` into an `interface{}`: the Go value of a JSON value, and
whether a number in it is out of range (the decoder then stores nothing for it
and reports an `UnmarshalTypeError` when it is done). -/

mutual
def JSON.toValue : JSON → Value
  | .null => Value.null
  | .bool b => Value.bool b
  | .num (some q) => Value.num q
  | .num none => Value.null
  | .str s => Value.str s
  | .arr xs => Value.slice (toValues xs)
  | .obj kvs => Value.obj (toObject [] kvs)
def toValues : List JSON → List Value
  | [] => []
  | x :: xs => x.toValue :: toValues xs
def toObject (acc : List (String × Value)) : List (String × JSON) → List (String × Value)
  | [] => acc
  | (k, j) :: kvs => toObject (Object.set acc k j.toValue) kvs
end

mutual
def JSON.outOfRange : JSON → Bool
  | .num none => true
  | .arr xs => anyOutOfRange xs
  | .obj kvs => anyFieldOutOfRange kvs
  | _ => false
def anyOutOfRange : List JSON → Bool
  | [] => false
  | x :: xs => x.outOfRange || anyOutOfRange xs
def anyFieldOutOfRange : List (String × JSON) → Bool
  | [] => false
  | (_, j) :: kvs => j.outOfRange || anyFieldOutOfRange kvs
end

/-- The call `json.Unmarshal([]byte(o), &operations)` on the package variable
`operations`: its new value and whether an error is returned.  A text that is
not valid JSON leaves the map alone; `null` makes it nil; an object is stored
key by key into the map that is there (a nil map is allocated first); any other
JSON value is an `UnmarshalTypeError`. -/
def unmarshalOperations (lib : Lib) (o : String) (operations : Value) : Value × Bool :=
  match lib.jsonParse o with
  | none => (operations, true)
  | some JSON.null => (Value.nilObj, false)
  | some (JSON.obj kvs) =>
    let base : Object := match operations with
      | .obj m => m
      | _ => []
    (Value.obj (toObject base kvs), anyFieldOutOfRange kvs)
  | some _ => (operations, true)

/-- Storing a JSON value into a Go `string`: the string and whether this is
an error.  `null` stores nothing. -/
def decodeString : JSON → String × Bool
  | .str s => (s, false)
  | .null => ("", false)
  | _ => ("", true)

/-- Storing a JSON value into a fresh `[]string`: an array gives a slice that
is not nil, `null` and every value that is an error leave the nil slice. -/
def decodeStrings : JSON → Option (List String) × Bool
  | .arr xs => (some (xs.map (fun x => (decodeString x).1)), xs.any (fun x => (decodeString x).2))
  | .null => (none, false)
  | _ => (none, true)

/-- Storing the members of a JSON object into a `map[string][]string`. -/
def decodeEntries (acc : Entries) : List (String × JSON) → Entries × Bool
  | [] => (acc, false)
  | (k, j) :: kvs =>
    let r := decodeEntries (Entries.set acc k (decodeStrings j).1) kvs
    (r.1, (decodeStrings j).2 || r.2)

/-- The call `json.Unmarshal([]byte(m), &mapEntries)` on the package variable
`mapEntries` (`none` is the nil map). -/
def unmarshalMapEntries (lib : Lib) (m : String) (mapEntries : Option Entries) :
    Option Entries × Bool :=
  match lib.jsonParse m with
  | none => (mapEntries, true)
  | some JSON.null => (none, false)
  | some (JSON.obj kvs) =>
    let r := decodeEntries (mapEntries.getD []) kvs
    (some r.1, r.2)
  | some _ => (mapEntries, true)

/-! ## Files -/

/-- The content of a file. -/
abbrev Bytes := List Nat

/-- One file part of the multipart form: the `*multipart.FileHeader` fields
the package reads, the error of `Open` if it fails, and what `ioutil.ReadAll`
returns. -/
structure FilePart where
  Filename : String
  ContentType : String
  openErr : Option String
  content : Except String Bytes

/-- The temporary directory: the files in it and how many times `TempFile`
has been called. -/
structure FS where
  files : List (String × Bytes)
  calls : Nat

/-- What the package takes from `os` and `io/ioutil`: the result of
`os.TempDir()`, the `n`-th random string that `ioutil.TempFile` draws, the
error (other than "file exists") of opening the name made from it, the error
of the `Write` that follows, and whether `ioutil.TempFile` builds its names
with `filepath.Join` (up to Go 1.15) or by putting one separator between the
directory and the name (`os.CreateTemp`, from Go 1.16 on). -/
structure OS where
  tempDir : String
  random : Nat → String
  createErr : Nat → Option String
  writeErr : Nat → Option String
  cleanJoin : Bool

/-- The content recorded for a path in a list of files. -/
def readFiles (files : List (String × Bytes)) (path : String) : Option Bytes :=
  match files with
  | [] => none
  | (p, b) :: rest => if p = path then some b else readFiles rest path

/-- The content of the file at a path. -/
def FS.read (fs : FS) (path : String) : Option Bytes :=
  readFiles fs.files path

/-- The loop of `filepath.Ext` over the reversed path. -/
def extChars : List Char → List Char → List Char
  | [], _ => []
  | c :: cs, acc =>
    if c = '/' then []
    else if c = '.' then '.' :: acc
    else extChars cs (c :: acc)

/-- The call `filepath.Ext(path)`: from the last dot of the last element on. -/
def Ext (path : String) : String :=
  String.mk (extChars path.data.reverse [])

/-- Splitting a reversed pattern at its last `*`: the reversed part before it
and the part after it. -/
def lastStar : List Char → List Char → Option (List Char × List Char)
  | [], _ => none
  | c :: cs, acc => if c = '*' then some (cs, acc) else lastStar cs (c :: acc)

/-- One element of a path in `filepath.Clean`: empty elements and `.` are
dropped, `..` removes the element before it, stays in front of a path that is
not rooted and is dropped at the root.  `stack` holds the elements kept so
far, the last one first. -/
def cleanStep (rooted : Bool) (stack : List (List Char)) (seg : List Char) : List (List Char) :=
  if seg = [] ∨ seg = ['.'] then stack
  else if seg = ['.', '.'] then
    match stack with
    | [] => if rooted then [] else [seg]
    | top :: below => if top = ['.', '.'] then seg :: stack else below
  else seg :: stack

/-- Joining path elements with `/`. -/
def slashJoin : List (List Char) → List Char
  | [] => []
  | [x] => x
  | x :: y :: rest => x ++ '/' :: slashJoin (y :: rest)

/-- The call `filepath.Clean(path)` with `/` as the separator. -/
def Clean (path : List Char) : List Char :=
  match path with
  | [] => ['.']
  | c :: _ =>
    let rooted := decide (c = '/')
    let kept := ((splitChars '/' path).foldl (cleanStep rooted) []).reverse
    if rooted then '/' :: slashJoin kept
    else if kept = [] then ['.'] else slashJoin kept

/-- The call `filepath.Join(dir, name)`. -/
def Join (dir name : List Char) : List Char :=
  if dir ≠ [] then Clean (dir ++ '/' :: name)
  else if name ≠ [] then Clean name
  else []

/-- The function `joinPath` of `os/tempfile.go`. -/
def joinPath (dir name : List Char) : List Char :=
  if dir.getLast? = some '/' then dir ++ name else dir ++ '/' :: name

/-- The name `ioutil.TempFile(dir, pattern)` tries with the random string
`rnd`: the last `*` of the pattern is replaced by it, and it is appended when
there is none; the directory is put in front. -/
def tempName (os : OS) (dir pattern rnd : String) : String :=
  let name : List Char :=
    match lastStar pattern.data.reverse [] with
    | some (pre, suf) => pre.reverse ++ rnd.data ++ suf
    | none => pattern.data ++ rnd.data
  String.mk (if os.cleanJoin then Join dir.data name else joinPath dir.data name)

/-- The loop of `ioutil.TempFile`: a name that exists makes it draw the next
random string, any other error ends it, and so does the last of its tries. -/
def tempLoop (os : OS) (dir pattern : String) : Nat → FS → Except String (String × FS)
  | 0, _ => .error "file exists"
  | tries + 1, fs =>
    match os.createErr fs.calls with
    | some e => .error e
    | none =>
      if (fs.read (tempName os dir pattern (os.random fs.calls))).isSome then
        tempLoop os dir pattern tries { fs with calls := fs.calls + 1 }
      else
        .ok (tempName os dir pattern (os.random fs.calls),
          ⟨(tempName os dir pattern (os.random fs.calls), []) :: fs.files, fs.calls + 1⟩)

/-- The call `ioutil.TempFile(dir, pattern)`: an error, or the name of a new
empty file.  The file is opened with `O_EXCL`; the loop has 10000 tries.  The
pattern of the package has no separator, so the check for one is left out. -/
def TempFile (os : OS) (fs : FS) (dir pattern : String) : Except String (String × FS) :=
  tempLoop os (if dir = "" then os.tempDir else dir) pattern 10000 fs

/-- Replacing the content recorded for a path. -/
def storeFiles (files : List (String × Bytes)) (path : String) (data : Bytes) :
    List (String × Bytes) :=
  match files with
  | [] => []
  | (p, b) :: rest =>
    if p = path then (p, data) :: rest else (p, b) :: storeFiles rest path data

/-- The call `f.Write(data)` on the file that the last `TempFile` created. -/
def writeFile (os : OS) (fs : FS) (name : String) (data : Bytes) : Except String FS :=
  match os.writeErr (fs.calls - 1) with
  | some e => .error e
  | none => .ok ⟨storeFiles fs.files name data, fs.calls⟩

/-! ## Requests and responses -/

/-- An `*http.Request`: the header under its canonical keys, and the form
that `ParseMultipartForm` reads from the body, which is the text fields and
the file parts in the order of the body. -/
structure Request where
  Method : String
  Header : List (String × String)
  Form : List (String × String)
  Files : List (String × FilePart)
  Body : String

/-- The first value of a field, or the empty string: `Header.Get`,
`PostForm.Get` and `PostFormValue`. -/
def firstValue (fields : List (String × String)) (k : String) : String :=
  match fields with
  | [] => ""
  | (k1, v) :: rest => if k1 = k then v else firstValue rest k

/-- The assignment `Header().Set(k, v)`. -/
def headerSet (h : List (String × String)) (k v : String) : List (String × String) :=
  match h with
  | [] => [(k, v)]
  | (k1, v1) :: rest => if k1 = k then (k, v) :: rest else (k1, v1) :: headerSet rest k v

/-- The call `r.FormFile(key)`: the first file part of that name, opened. -/
def Request.FormFile (r : Request) (key : String) : Except String FilePart :=
  match r.Files.find? (fun kv => kv.1 = key) with
  | none => .error "http: no such file"
  | some (_, part) =>
    match part.openErr with
    | some e => .error e
    | none => .ok part

/-- What has been written to an `http.ResponseWriter`. -/
structure Response where
  Header : List (String × String)
  Status : Option Nat
  Body : String

/-- The call `http.Error(w, msg, code)`. -/
def httpError (w : Response) (msg : String) (code : Nat) : Response :=
  { Header := headerSet (headerSet w.Header "Content-Type" "text/plain; charset=utf-8")
      "X-Content-Type-Options" "nosniff"
    Status := some code
    Body := w.Body ++ msg ++ "\n" }

/-! ## middleware.go -/

/-- The function `isMiddlewareSupported`. -/
def isMiddlewareSupported (lib : Lib) (r : Request) : Bool :=
  if r.Method ≠ "POST" then false
  else
    let contentType := firstValue r.Header "Content-Type"
    let mediatype := ParseMediaType lib.mime contentType
    if contentType = "" ∨ mediatype ≠ "multipart/form-data" then false
    else true

/-- The struct `fileData` sent over `fileChannel`.  `Fields` is the map that
`findFields` returned, with its position in the operations tree; `Files` is
the request whose `FormFile` method the worker calls. -/
structure fileData where
  Fields : List Step × Value
  Files : Request
  MapEntryIndex : String
  EntryPaths : List String

/-- The function `mapTemporaryFileToOperations` on the `fileData` it receives:
the operations tree and the temporary directory afterwards, and the error it
returns (`none` for `nil`) or the panic it raises. -/
def mapTemporaryFileToOperations (os : OS) (params : fileData) (operations : Value) (fs : FS) :
    Value × FS × Except Panic (Option String) :=
  match params.Files.FormFile params.MapEntryIndex with
  | .error e => (operations, fs, .ok (some ("Could not access multipart file. Reason: " ++ e)))
  | .ok handle =>
    match handle.content with
    | .error e => (operations, fs, .ok (some ("Could not read multipart file. Reason: " ++ e)))
    | .ok data =>
      match TempFile os fs os.tempDir ("graphqlupload-*" ++ Ext handle.Filename) with
      | .error e =>
        (operations, fs, .ok (some ("Unable to create temporary file. Reason: " ++ e)))
      | .ok (name, fs1) =>
        match writeFile os fs1 name data with
        | .error e =>
          (operations, fs1, .ok (some ("Could not write temporary file. Reason: " ++ e)))
        | .ok fs2 =>
          let upload : GraphQLUpload :=
            { MIMEType := handle.ContentType, Filename := handle.Filename, Filepath := name }
          match params.Fields.2 with
          | .obj _ =>
            match params.EntryPaths.getLast? with
            | some last =>
              (assignAt operations params.Fields.1 last (Value.upload upload), fs2, .ok none)
            | none => (operations, fs2, .error Panic.indexOutOfRange)
          | .nilObj =>
            match params.EntryPaths.getLast? with
            | some _ => (operations, fs2, .error Panic.nilMapAssign)
            | none => (operations, fs2, .error Panic.indexOutOfRange)
          | _ => (operations, fs2, .ok none)

/-- Reading `operations[k]` on the root map; a nil map reads as `nil`. -/
def rootIndex (operations : Value) (k : String) : Value :=
  match operations with
  | .obj m => Object.index m k
  | _ => Value.null

/-- The state that `mapOperations` works on: the operations tree, the
temporary directory, and the errors that the workers returned and the
goroutines threw away (these are not observable in Go; they are recorded to
state what is lost). -/
structure MapState where
  operations : Value
  fs : FS
  dropped : List String

/-- The body of the inner `for` loop of `mapOperations`, for the key `idx` of
the map and one of its paths, as far as the handler's goroutine runs it: a
form value is assigned at once; for a file the goroutine is started and the
`fileData` is sent to it, which is the second component of the result. -/
def mapEntry (r : Request) (idx entry : String) (st : MapState) :
    MapState × Option fileData × Option Panic :=
  let entryPaths := Split entry
  match findFieldsLoc st.operations entryPaths.dropLast with
  | .error p => (st, none, some p)
  | .ok fields =>
    let value := firstValue r.Form idx
    if value ≠ "" then
      match entryPaths with
      | [] => (st, none, some Panic.indexOutOfRange)
      | p0 :: tl =>
        match rootIndex st.operations p0 with
        | .obj _ =>
          match tl with
          | [] => (st, none, some Panic.indexOutOfRange)
          | p1 :: _ =>
            ({ st with operations := assignAt st.operations [Step.key p0] p1 (Value.str value) },
              none, none)
        | .nilObj =>
          match tl with
          | [] => (st, none, some Panic.indexOutOfRange)
          | _ :: _ => (st, none, some Panic.nilMapAssign)
        | _ => (st, none, some Panic.typeAssertion)
    else
      (st, some { Fields := fields, Files := r, MapEntryIndex := idx, EntryPaths := entryPaths },
        none)

/-- The goroutine `func() { defer wg.Done(); mapTemporaryFileToOperations() }`
once it has received its `fileData`: the error of the worker is thrown away.
The worker is taken as one step, at the moment of its assignment; until then
it touches only its own temporary file. -/
def worker (os : OS) (params : fileData) (st : MapState) : MapState × Option Panic :=
  match mapTemporaryFileToOperations os params st.operations st.fs with
  | (ops, fs, .ok none) => ({ st with operations := ops, fs := fs }, none)
  | (ops, fs, .ok (some e)) =>
    ({ operations := ops, fs := fs, dropped := st.dropped ++ [e] }, none)
  | (ops, fs, .error p) => ({ st with operations := ops, fs := fs }, some p)

/-- The workers that finish between two turns of the loop: `order` names them
by their place among the workers still running (a place that is not taken is
skipped).  A panic in a worker ends the process. -/
def finishWorkers (os : OS) : List Nat → List fileData → MapState →
    List fileData × MapState × Option Panic
  | [], running, st => (running, st, none)
  | i :: order, running, st =>
    match running.get? i with
    | none => finishWorkers os order running st
    | some w =>
      match worker os w st with
      | (st1, none) => finishWorkers os order (running.eraseIdx i) st1
      | (st1, some p) => (running.eraseIdx i, st1, some p)

/-- The call `wg.Wait()`: every worker still running finishes. -/
def waitWorkers (os : OS) : List fileData → MapState → MapState × Option Panic
  | [], st => (st, none)
  | w :: running, st =>
    match worker os w st with
    | (st1, none) => waitWorkers os running st1
    | (st1, some p) => (st1, some p)

/-- The pairs of a key and one of its paths, in the order in which the two
nested `for` loops of `mapOperations` visit them. -/
def tasks : Entries → List (String × String)
  | [] => []
  | (idx, paths) :: rest => (paths.getD []).map (fun entry => (idx, entry)) ++ tasks rest

/-- How a call of `mapOperations` ends: the state it leaves, the panic of the
handler's goroutine if it raised one (`net/http` recovers it), and the panic
of a worker goroutine if one raised one (nothing recovers it: the process
ends). -/
structure Outcome where
  st : MapState
  panic : Option Panic
  crash : Option Panic

/-- The two nested loops of `mapOperations` from turn `j` on, with the pairs
still to visit and the workers still running, and the `wg.Wait()` after them.
After a panic of the loop the workers that are running still finish. -/
def runLoop (os : OS) (schedule : Nat → List Nat) (r : Request) :
    Nat → List (String × String) → List fileData → MapState → Outcome
  | _, [], running, st =>
    match waitWorkers os running st with
    | (st1, crash) => { st := st1, panic := none, crash := crash }
  | j, (idx, entry) :: rest, running, st =>
    match mapEntry r idx entry st with
    | (st1, _, some p) =>
      match waitWorkers os running st1 with
      | (st2, crash) => { st := st2, panic := some p, crash := crash }
    | (st1, started, none) =>
      match finishWorkers os (schedule j) (running ++ started.toList) st1 with
      | (_, st2, some p) => { st := st2, panic := none, crash := some p }
      | (running2, st2, none) => runLoop os schedule r (j + 1) rest running2 st2

/-- The function `mapOperations`; `mapEntries` lists the map in the order in
which `range` visits it and `schedule` says when the workers finish. -/
def mapOperations (os : OS) (schedule : Nat → List Nat) (mapEntries : Entries)
    (operations : Value) (r : Request) (fs : FS) : Outcome :=
  runLoop os schedule r 0 (tasks mapEntries) []
    { operations := operations, fs := fs, dropped := [] }

/-- The package variables `mapEntries` and `operations`. -/
structure Globals where
  mapEntries : Option Entries
  operations : Value

/-- What one call of the handler leaves behind: the package variables and the
temporary directory, what was written to `w`, the request passed to
`next.ServeHTTP` if that was called, the panic of the handler if it raised
one, the panic of a worker goroutine if one ended the process, and the worker
errors that were thrown away. -/
structure Served where
  globals : Globals
  fs : FS
  w : Response
  next : Option Request
  panic : Option Panic
  crash : Option Panic
  dropped : List String

/-- The handler that `Handler(next)` returns, called on `w` and `r`.  The
tests `&m == nil` and `&o == nil` compare the address of a local variable
with nil and never hold. -/
def Handler (lib : Lib) (os : OS) (g : Globals) (fs : FS) (w : Response) (r : Request) : Served :=
  if isMiddlewareSupported lib r = false then
    { globals := g, fs := fs, w := w, next := some r, panic := none, crash := none,
      dropped := [] }
  else
    let m := firstValue r.Form "map"
    let o := firstValue r.Form "operations"
    let opsErr := unmarshalOperations lib o g.operations
    if opsErr.2 then
      { globals := { g with operations := opsErr.1 }, fs := fs,
        w := httpError w "Cannot unmarshal operations: malformed query" 400,
        next := none, panic := none, crash := none, dropped := [] }
    else
      let mapErr := unmarshalMapEntries lib m g.mapEntries
      if mapErr.2 then
        { globals := { mapEntries := mapErr.1, operations := opsErr.1 }, fs := fs,
          w := httpError w "Cannot unmarshal map entries: malformed query" 400,
          next := none, panic := none, crash := none, dropped := [] }
      else
        let out := mapOperations os lib.schedule (lib.rangeOrder (mapErr.1.getD [])) opsErr.1 r fs
        match out.crash, out.panic with
        | some p, _ =>
          { globals := { mapEntries := mapErr.1, operations := out.st.operations },
            fs := out.st.fs, w := w, next := none, panic := out.panic, crash := some p,
            dropped := out.st.dropped }
        | none, some p =>
          { globals := { mapEntries := mapErr.1, operations := out.st.operations },
            fs := out.st.fs, w := w, next := none, panic := some p, crash := none,
            dropped := out.st.dropped }
        | none, none =>
          let params : graphqlParams :=
            { Variables := rootIndex out.st.operations "variables"
              Query := rootIndex out.st.operations "query"
              Operations := out.st.operations
              Map := mapErr.1 }
          match lib.jsonMarshal params with
          | some body =>
            { globals := { mapEntries := mapErr.1, operations := out.st.operations },
              fs := out.st.fs,
              w := { w with Header := headerSet w.Header "Content-Type" "application/json" },
              next := some { r with Body := body }, panic := none, crash := none,
              dropped := out.st.dropped }
          | none =>
            { globals := { mapEntries := mapErr.1, operations := out.st.operations },
              fs := out.st.fs, w := w, next := some { r with Body := "" }, panic := none,
              crash := none, dropped := out.st.dropped }

/-! ## scalar.go -/

/-- The method `ImplementsGraphQLType`. -/
def GraphQLUpload.ImplementsGraphQLType (_u : GraphQLUpload) (name : String) : Bool :=
  name = "Upload"

/-- The method `UnmarshalGraphQL`: the receiver afterwards and the error
returned (`none` for `nil`).  When `json.Marshal` fails the receiver is left
alone: `u = &GraphQLUpload{}` only rebinds the local pointer. -/
def GraphQLUpload.UnmarshalGraphQL (lib : Lib) (u : GraphQLUpload) (input : Value) :
    GraphQLUpload × Option String :=
  match input with
  | .obj _ =>
    match lib.jsonMarshalValue input with
    | none => (u, none)
    | some data => (lib.jsonHydrate data u, none)
  | .nilObj =>
    match lib.jsonMarshalValue input with
    | none => (u, none)
    | some data => (lib.jsonHydrate data u, none)
  | _ => (u, some "Cannot unmarshal received type as a GraphQLUpload type")

/-! ## A library instance for the examples

The general theorems hold for every `Lib` and `OS`.  The examples run the
embedding on concrete requests and need one instance: runes outside ASCII are
their own lower case, a parameter name may come twice with the same value, each
worker finishes right after it was handed its file, the JSON texts are the ones
the examples use, and values are written with sorted keys, strings between
quotes and without escapes.  In the string literals `\x7b` is an opening and
`\x7d` a closing brace. -/

/-- Inserting a binding into a list sorted by key. -/
def insertSorted (k : String) (v : String) : List (String × String) → List (String × String)
  | [] => [(k, v)]
  | (k1, v1) :: rest =>
    if k < k1 then (k, v) :: (k1, v1) :: rest else (k1, v1) :: insertSorted k v rest

/-- Joining rendered items with commas. -/
def commaJoin : List String → String
  | [] => ""
  | [x] => x
  | x :: y :: rest => x ++ "," ++ commaJoin (y :: rest)

/-- A string between quotes. -/
def quote (s : String) : String :=
  "\"" ++ s ++ "\""

/-- The members of an object, rendered and sorted by key. -/
def renderSorted (fields : List (String × String)) : String :=
  "\x7b" ++ commaJoin ((fields.foldr (fun kv acc => insertSorted kv.1 kv.2 acc) []).map
    (fun kv => quote kv.1 ++ ":" ++ kv.2)) ++ "\x7d"

mutual
def Value.render : Value → String
  | .null => "null"
  | .bool b => if b then "true" else "false"
  | .num q => if q.den = 1 then toString q.num else toString q.num ++ "/" ++ toString q.den
  | .str s => quote s
  | .slice xs => "[" ++ commaJoin (renderList xs) ++ "]"
  | .obj m => renderSorted (renderFields m)
  | .nilObj => "null"
  | .objs ms => "[" ++ commaJoin (renderObjects ms) ++ "]"
  | .intMap m => renderSorted (renderIntFields m)
  | .upload u =>
    "\x7b" ++ "\"filename\":" ++ quote u.Filename ++ ",\"mimetype\":" ++ quote u.MIMEType ++
      ",\"filepath\":" ++ quote u.Filepath ++ "\x7d"
def renderList : List Value → List String
  | [] => []
  | x :: xs => x.render :: renderList xs
def renderFields : List (String × Value) → List (String × String)
  | [] => []
  | (k, v) :: m => (k, v.render) :: renderFields m
def renderObjects : List (List (String × Value)) → List String
  | [] => []
  | m :: ms => renderSorted (renderFields m) :: renderObjects ms
def renderIntFields : List (Int × Value) → List (String × String)
  | [] => []
  | (k, v) :: m => (toString k, v.render) :: renderIntFields m
end

/-- The example rendering of a `map[string][]string`. -/
def renderEntries : Option Entries → String
  | none => "null"
  | some m => renderSorted (m.map (fun kv => (kv.1, match kv.2 with
    | none => "null"
    | some paths => "[" ++ commaJoin (paths.map quote) ++ "]")))

/-- The example rendering of a `graphqlParams`, in the order of its fields. -/
def renderParams (p : graphqlParams) : String :=
  "\x7b" ++ "\"variables\":" ++ p.Variables.render ++ ",\"query\":" ++ p.Query.render ++
    ",\"operations\":" ++ p.Operations.render ++ ",\"map\":" ++ renderEntries p.Map ++ "\x7d"

/-- The operations payload of `TestHandlerWhenSuccess`, with a shorter query. -/
def opsText : String :=
  "\x7b \"query\": \"mutation\", \"variables\": \x7b \"file\": null, \"title\": \"my test title\" \x7d \x7d"

/-- The value of `opsText`. -/
def opsJSON : JSON :=
  JSON.obj [("query", JSON.str "mutation"),
    ("variables", JSON.obj [("file", JSON.null), ("title", JSON.str "my test title")])]

/-- The map payload of `TestHandlerWhenSuccess`. -/
def mapText : String :=
  "\x7b \"file\": [\"variables.file\"], \"title\": [\"variables.title\"] \x7d"

/-- The value of `mapText`. -/
def mapJSON : JSON :=
  JSON.obj [("file", JSON.arr [JSON.str "variables.file"]),
    ("title", JSON.arr [JSON.str "variables.title"])]

/-- Operations with an object `input` under `variables`. -/
def deepOpsText : String :=
  "\x7b\"variables\": \x7b\"input\": \x7b\"file\": null, \"title\": null\x7d\x7d\x7d"

/-- A map that sends a file and a form value to two fields of `input`. -/
def deepMapText : String :=
  "\x7b\"file\": [\"variables.input.file\"], \"title\": [\"variables.input.title\"]\x7d"

/-- The JSON texts of the examples and their values; every other text counts
as malformed. -/
def exampleParse (text : String) : Option JSON :=
  if text = "null" then some JSON.null
  else if text = "\x7b\x7d" then some (JSON.obj [])
  else if text = opsText then some opsJSON
  else if text = mapText then some mapJSON
  else if text = "\x7b\"file\": [\"variables.file\"]\x7d" then
    some (JSON.obj [("file", JSON.arr [JSON.str "variables.file"])])
  else if text = "\x7b\"file\": null\x7d" then some (JSON.obj [("file", JSON.null)])
  else if text = "\x7b\"title\": [\"variables.title\"]\x7d" then
    some (JSON.obj [("title", JSON.arr [JSON.str "variables.title"])])
  else if text = "\x7b\"title\": [\"variables.input.title\"]\x7d" then
    some (JSON.obj [("title", JSON.arr [JSON.str "variables.input.title"])])
  else if text = "\x7b\"query\": \"q\"\x7d" then some (JSON.obj [("query", JSON.str "q")])
  else if text = "\x7b\"variables\": \x7b\"file\": null\x7d\x7d" then
    some (JSON.obj [("variables", JSON.obj [("file", JSON.null)])])
  else if text = "\x7b\"variables\": \x7b\"input\": \x7b\"title\": null\x7d\x7d\x7d" then
    some (JSON.obj [("variables", JSON.obj [("input", JSON.obj [("title", JSON.null)])])])
  else if text = deepOpsText then
    some (JSON.obj [("variables", JSON.obj [("input",
      JSON.obj [("file", JSON.null), ("title", JSON.null)])])])
  else if text = deepMapText then
    some (JSON.obj [("file", JSON.arr [JSON.str "variables.input.file"]),
      ("title", JSON.arr [JSON.str "variables.input.title"])])
  else none

/-- The library instance of the examples. -/
def exampleLib : Lib where
  mime := { unicodeLower := fun c => c, equalDuplicates := true }
  jsonParse := exampleParse
  jsonMarshal := fun p => some (renderParams p)
  jsonMarshalValue := fun v => some v.render
  jsonHydrate := fun _ u => u
  rangeOrder := fun m => m
  schedule := fun _ => [0]

/-- An operating system on which nothing fails; the `n`-th random string is
`n` written in unary. -/
def exampleOS : OS where
  tempDir := "/tmp"
  random := fun n => String.mk (List.replicate (n + 1) 'x')
  createErr := fun _ => none
  writeErr := fun _ => none
  cleanJoin := true

/-- No package variable set, as when the process starts. -/
def freshGlobals : Globals :=
  { mapEntries := none, operations := Value.nilObj }

/-- An empty temporary directory. -/
def emptyFS : FS :=
  { files := [], calls := 0 }

/-- A response writer to which nothing has been written. -/
def emptyResponse : Response :=
  { Header := [], Status := none, Body := "" }

/-- The file part of `TestHandlerWhenSuccess`, with four bytes of content.
`CreateFormFile` declares it as `application/octet-stream`. -/
def testFile : FilePart where
  Filename := "middleware.go"
  ContentType := "application/octet-stream"
  openErr := none
  content := .ok [112, 97, 99, 107]

/-- The request of `TestHandlerWhenSuccess`: a file part `file`, the fields
`operations`, `map` and `title`. -/
def testRequest : Request where
  Method := "POST"
  Header := [("Content-Type", "multipart/form-data; boundary=b0")]
  Form := [("operations", opsText), ("map", mapText), ("title", "my test title")]
  Files := [("file", testFile)]
  Body := "<multipart body>"

/-- The operations tree that `opsText` decodes to. -/
def testOperations : Value :=
  Value.obj [("query", Value.str "mutation"),
    ("variables", Value.obj [("file", Value.null), ("title", Value.str "my test title")])]

/-- The map that `mapText` decodes to. -/
def testEntries : Entries :=
  [("file", some ["variables.file"]), ("title", some ["variables.title"])]

/-- A request that uploads the part `file` to `variables.input.file` and sends
the form value `title` to `variables.input.title`. -/
def deepRequest : Request where
  Method := "POST"
  Header := [("Content-Type", "multipart/form-data; boundary=b0")]
  Form := [("operations", deepOpsText), ("map", deepMapText), ("title", "my test title")]
  Files := [("file", testFile)]
  Body := "<multipart body>"

/-- The operations tree that `deepOpsText` decodes to. -/
def deepOperations : Value :=
  Value.obj [("variables", Value.obj [("input",
    Value.obj [("file", Value.null), ("title", Value.null)])])]

/-- The map that `deepMapText` decodes to. -/
def deepEntries : Entries :=
  [("file", some ["variables.input.file"]), ("title", some ["variables.input.title"])]

/-- The `fileData` that the loop hands to the worker for the part `file` of
`deepRequest`. -/
def deepWorker : fileData where
  Fields := ([Step.key "variables", Step.key "input"],
    Value.obj [("file", Value.null), ("title", Value.null)])
  Files := deepRequest
  MapEntryIndex := "file"
  EntryPaths := ["variables", "input", "file"]

/-- A POST request with nothing but a Content-Type header. -/
def headerRequest (contentType : String) : Request where
  Method := "POST"
  Header := [("Content-Type", contentType)]
  Form := []
  Files := []
  Body := ""

/-- A multipart POST request with the given text fields and no file part. -/
def formRequest (form : List (String × String)) : Request where
  Method := "POST"
  Header := [("Content-Type", "multipart/form-data; boundary=b0")]
  Form := form
  Files := []
  Body := "<multipart body>"

/-- A form value for a path of three segments. -/
def nestedTitleRequest : Request :=
  formRequest [("operations", "\x7b\"variables\": \x7b\"input\": \x7b\"title\": null\x7d\x7d\x7d"),
    ("map", "\x7b\"title\": [\"variables.input.title\"]\x7d"), ("title", "my test title")]

/-- The JSON literal `null` as the map. -/
def nullMapRequest : Request :=
  formRequest [("operations", "\x7b\x7d"), ("map", "null")]

/-- A map whose only value is `null`. -/
def nullValueRequest : Request :=
  formRequest [("operations", "\x7b\x7d"), ("map", "\x7b\"file\": null\x7d")]

/-- Valid operations and a map that is not valid JSON. -/
def brokenMapRequest : Request :=
  formRequest [("operations", "\x7b\x7d"), ("map", "\x7b")]

/-- A map entry for a file part that the request does not have. -/
def missingFileRequest : Request :=
  formRequest [("operations", "\x7b\"variables\": \x7b\"file\": null\x7d\x7d"),
    ("map", "\x7b\"file\": [\"variables.file\"]\x7d")]

/-- A form value for a path whose first segment is not in the operations. -/
def missingPathRequest : Request :=
  formRequest [("operations", "\x7b\"query\": \"q\"\x7d"),
    ("map", "\x7b\"title\": [\"variables.title\"]\x7d"), ("title", "my test title")]

/-- A file entry for a path whose first segment is not in the operations. -/
def missingFilePathRequest : Request :=
  formRequest [("operations", "\x7b\"query\": \"q\"\x7d"),
    ("map", "\x7b\"file\": [\"variables.file\"]\x7d")]

/-- A request with a query, no variables and an empty map. -/
def plainRequest : Request :=
  formRequest [("operations", "\x7b\"query\": \"q\"\x7d"), ("map", "\x7b\x7d")]

/-- What the handler leaves behind after `testRequest` on a fresh process. -/
def afterTest : Served :=
  Handler exampleLib exampleOS freshGlobals emptyFS emptyResponse testRequest

/-- JSON values that `json.Unmarshal` stores into a `[]string` without error:
`null` and arrays of strings and `null`s. -/
def acceptedPaths : JSON → Bool
  | .null => true
  | .arr xs => xs.all (fun x => match x with
    | .str _ => true
    | .null => true
    | _ => false)
  | _ => false

/-- JSON values that `json.Unmarshal` stores into a `map[string][]string`
without error: `null` and objects whose values are accepted as `[]string`. -/
def acceptedMap : JSON → Bool
  | .null => true
  | .obj kvs => kvs.all (fun kv => acceptedPaths kv.2)
  | _ => false

/-- Values of dynamic type `map[string]interface{}`. -/
def Value.isStringKeyed : Value → Bool
  | .obj _ => true
  | .nilObj => true
  | _ => false

/-- A tree whose root is a `[]map[string]interface{}` with one element. -/
def arrayTree : Value :=
  Value.objs [[("a", Value.obj [("b", Value.null)])]]

/-! ## findFields is total -/

theorem arrayDepth_index (m : Object) (s : String) :
    (Object.index m s).arrayDepth ≤ arrayDepthMap m := by
  induction m with
  | nil => simp [Object.index, Object.get?, Value.arrayDepth]
  | cons kv rest ih =>
    obtain ⟨k1, v⟩ := kv
    by_cases h : k1 = s
    · simp [Object.index, Object.get?, h, arrayDepthMap]
    · have : Object.index ((k1, v) :: rest) s = Object.index rest s := by
        simp [Object.index, Object.get?, h]
      rw [this]
      simp only [arrayDepthMap]
      exact le_trans ih (le_max_right _ _)

theorem arrayDepth_get (arr : List (List (String × Value))) (i : Nat) (el : List (String × Value))
    (h : arr.get? i = some el) : arrayDepthMap el ≤ arrayDepthMaps arr := by
  induction arr generalizing i with
  | nil => simp at h
  | cons m ms ih =>
    cases i with
    | zero =>
      simp at h
      subst h
      simp only [arrayDepthMaps]
      exact le_max_left _ _
    | succ j =>
      simp at h
      simp only [arrayDepthMaps]
      exact le_trans (ih j (by simpa using h)) (le_max_right _ _)

/-- Two restart functions that agree below depth `d` give the same loop on a
value of depth at most `d`. -/
theorem findFieldsLoop_congr (r1 r2 : List Step → Value → Option (Except Panic (List Step × Value)))
    (d : Nat) (hr : ∀ l v, v.arrayDepth < d → r1 l v = r2 l v) :
    ∀ (rest : List String) (i : Nat) (loc : List Step) (ops : Value), ops.arrayDepth ≤ d →
      findFieldsLoop r1 rest i loc ops = findFieldsLoop r2 rest i loc ops := by
  intro rest
  induction rest with
  | nil => intro i loc ops _; simp [findFieldsLoop]
  | cons s rest ih =>
    intro i loc ops hd
    cases ops with
    | objs arr =>
      simp only [findFieldsLoop]
      cases hget : arr.get? i with
      | none => rfl
      | some el =>
        simp only
        apply hr
        have h1 := arrayDepth_get arr i el hget
        simp only [Value.arrayDepth] at hd ⊢
        omega
    | obj m =>
      simp only [findFieldsLoop]
      apply ih
      have h1 := arrayDepth_index m s
      simp only [Value.arrayDepth] at hd
      omega
    | nilObj =>
      simp only [findFieldsLoop]
      apply ih
      simp [Value.arrayDepth]
    | null => simp only [findFieldsLoop]; exact ih _ _ _ hd
    | bool b => simp only [findFieldsLoop]; exact ih _ _ _ hd
    | num n => simp only [findFieldsLoop]; exact ih _ _ _ hd
    | str s => simp only [findFieldsLoop]; exact ih _ _ _ hd
    | slice xs => simp only [findFieldsLoop]; exact ih _ _ _ hd
    | intMap m => simp only [findFieldsLoop]; exact ih _ _ _ hd
    | upload u => simp only [findFieldsLoop]; exact ih _ _ _ hd
/-- A restart function that answers below depth `d` makes the loop answer on
a value of depth at most `d`. -/
theorem findFieldsLoop_isSome (r : List Step → Value → Option (Except Panic (List Step × Value)))
    (d : Nat) (hr : ∀ l v, v.arrayDepth < d → (r l v).isSome) :
    ∀ (rest : List String) (i : Nat) (loc : List Step) (ops : Value), ops.arrayDepth ≤ d →
      (findFieldsLoop r rest i loc ops).isSome := by
  intro rest
  induction rest with
  | nil => intro i loc ops _; simp [findFieldsLoop]
  | cons s rest ih =>
    intro i loc ops hd
    cases ops with
    | objs arr =>
      simp only [findFieldsLoop]
      cases hget : arr.get? i with
      | none => rfl
      | some el =>
        simp only
        apply hr
        have h1 := arrayDepth_get arr i el hget
        simp only [Value.arrayDepth] at hd ⊢
        omega
    | obj m =>
      simp only [findFieldsLoop]
      apply ih
      have h1 := arrayDepth_index m s
      simp only [Value.arrayDepth] at hd
      omega
    | nilObj =>
      simp only [findFieldsLoop]
      apply ih
      simp [Value.arrayDepth]
    | null => simp only [findFieldsLoop]; exact ih _ _ _ hd
    | bool b => simp only [findFieldsLoop]; exact ih _ _ _ hd
    | num n => simp only [findFieldsLoop]; exact ih _ _ _ hd
    | str s => simp only [findFieldsLoop]; exact ih _ _ _ hd
    | slice xs => simp only [findFieldsLoop]; exact ih _ _ _ hd
    | intMap m => simp only [findFieldsLoop]; exact ih _ _ _ hd
    | upload u => simp only [findFieldsLoop]; exact ih _ _ _ hd

/-- With more recursive calls allowed than the value is deep, `findFields`
answers. -/
theorem findFieldsFuel_isSome (entryPaths : List String) :
    ∀ (fuel : Nat) (loc : List Step) (ops : Value), ops.arrayDepth < fuel →
      (findFieldsFuel fuel loc ops entryPaths).isSome := by
  intro fuel
  induction fuel with
  | zero => intro loc ops h; omega
  | succ n ih =>
    intro loc ops h
    simp only [findFieldsFuel]
    exact findFieldsLoop_isSome _ n (fun l v hv => ih l v hv) _ _ _ _ (by omega)

/-- One more recursive call allowed does not change the answer. -/
theorem findFieldsFuel_succ (entryPaths : List String) :
    ∀ (fuel : Nat) (loc : List Step) (ops : Value), ops.arrayDepth < fuel →
      findFieldsFuel (fuel + 1) loc ops entryPaths = findFieldsFuel fuel loc ops entryPaths := by
  intro fuel
  induction fuel with
  | zero => intro loc ops h; omega
  | succ n ih =>
    intro loc ops h
    rw [findFieldsFuel, findFieldsFuel]
    exact findFieldsLoop_congr _ _ n (fun l v hv => ih l v hv) _ _ _ _ (by omega)

/-- Any bound above the depth of the value gives the answer of `findFieldsLoc`. -/
theorem findFieldsFuel_stable (entryPaths : List String) (loc : List Step) (ops : Value)
    (fuel : Nat) (h : ops.arrayDepth < fuel) :
    findFieldsFuel fuel loc ops entryPaths =
      findFieldsFuel (ops.arrayDepth + 1) loc ops entryPaths := by
  induction fuel with
  | zero => omega
  | succ n ih =>
    by_cases hn : ops.arrayDepth < n
    · rw [findFieldsFuel_succ entryPaths n loc ops hn, ih hn]
    · have : n = ops.arrayDepth := by omega
      rw [this]

/-- The bound of `findFieldsLoc` is never used up: its answer is the answer of
the bounded function. -/
theorem findFieldsFuel_total (ops : Value) (entryPaths : List String) :
    findFieldsFuel (ops.arrayDepth + 1) [] ops entryPaths = some (findFieldsLoc ops entryPaths) := by
  have h := findFieldsFuel_isSome entryPaths (ops.arrayDepth + 1) [] ops (by omega)
  unfold findFieldsLoc
  cases hr : findFieldsFuel (ops.arrayDepth + 1) [] ops entryPaths with
  | none => rw [hr] at h; simp at h
  | some r => rfl

/-! ## findFields at an array of objects -/

theorem walkTo_arrayDepth :
    ∀ (i : Nat) (rest : List String) (ops v : Value), walkTo ops rest i = some v →
      v.arrayDepth ≤ ops.arrayDepth := by
  intro i
  induction i with
  | zero =>
    intro rest ops v h
    simp [walkTo] at h
    subst h
    exact le_refl _
  | succ n ih =>
    intro rest ops v h
    cases rest with
    | nil => simp [walkTo] at h
    | cons s rest =>
      cases ops with
      | objs arr => simp [walkTo] at h
      | obj m =>
        simp only [walkTo] at h
        have h1 := ih rest _ v h
        have h2 := arrayDepth_index m s
        simp only [Value.arrayDepth]
        omega
      | nilObj =>
        simp only [walkTo] at h
        have h1 := ih rest _ v h
        simp only [Value.arrayDepth] at h1 ⊢
        omega
      | null => simp only [walkTo] at h; exact ih rest _ v h
      | bool b => simp only [walkTo] at h; exact ih rest _ v h
      | num n => simp only [walkTo] at h; exact ih rest _ v h
      | str s => simp only [walkTo] at h; exact ih rest _ v h
      | slice xs => simp only [walkTo] at h; exact ih rest _ v h
      | intMap m => simp only [walkTo] at h; exact ih rest _ v h
      | upload u => simp only [walkTo] at h; exact ih rest _ v h

/-- When the loop reaches a `[]map[string]interface{}` at an index that the
slice has, its answer is the answer of the recursive call on that element. -/
theorem findFieldsLoop_walkTo
    (r : List Step → Value → Option (Except Panic (List Step × Value)))
    (arr : List (List (String × Value))) (el : List (String × Value)) :
    ∀ (i : Nat) (rest : List String) (j : Nat) (loc : List Step) (ops : Value),
      walkTo ops rest i = some (Value.objs arr) → i < rest.length → arr.get? (j + i) = some el →
      ∃ loc2, findFieldsLoop r rest j loc ops = r loc2 (Value.obj el) := by
  intro i
  induction i with
  | zero =>
    intro rest j loc ops hw hlen hget
    simp [walkTo] at hw
    subst hw
    cases rest with
    | nil => simp at hlen
    | cons s rest =>
      refine ⟨loc ++ [Step.idx j], ?_⟩
      simp only [findFieldsLoop]
      simp only [Nat.add_zero] at hget
      rw [hget]
  | succ n ih =>
    intro rest j loc ops hw hlen hget
    cases rest with
    | nil => simp at hlen
    | cons s rest =>
      have hlen2 : n < rest.length := by simpa using hlen
      have hget2 : arr.get? (j + 1 + n) = some el := by
        rw [← hget]; congr 1; omega
      cases ops with
      | objs arr2 => simp [walkTo] at hw
      | obj m =>
        simp only [walkTo] at hw
        simp only [findFieldsLoop]
        exact ih rest (j + 1) _ _ hw hlen2 hget2
      | nilObj =>
        simp only [walkTo] at hw
        simp only [findFieldsLoop]
        exact ih rest (j + 1) _ _ hw hlen2 hget2
      | null => simp only [walkTo] at hw; simp only [findFieldsLoop]; exact ih rest (j + 1) _ _ hw hlen2 hget2
      | bool b => simp only [walkTo] at hw; simp only [findFieldsLoop]; exact ih rest (j + 1) _ _ hw hlen2 hget2
      | num q => simp only [walkTo] at hw; simp only [findFieldsLoop]; exact ih rest (j + 1) _ _ hw hlen2 hget2
      | str t => simp only [walkTo] at hw; simp only [findFieldsLoop]; exact ih rest (j + 1) _ _ hw hlen2 hget2
      | slice xs => simp only [walkTo] at hw; simp only [findFieldsLoop]; exact ih rest (j + 1) _ _ hw hlen2 hget2
      | intMap m => simp only [walkTo] at hw; simp only [findFieldsLoop]; exact ih rest (j + 1) _ _ hw hlen2 hget2
      | upload u => simp only [walkTo] at hw; simp only [findFieldsLoop]; exact ih rest (j + 1) _ _ hw hlen2 hget2

/-- The map that the loop returns does not depend on the position it started
with, if that holds of the recursive call. -/
theorem findFieldsLoop_loc (r : List Step → Value → Option (Except Panic (List Step × Value)))
    (hr : ∀ l1 l2 v, (r l1 v).map fieldsOf = (r l2 v).map fieldsOf) :
    ∀ (rest : List String) (i : Nat) (loc1 loc2 : List Step) (ops : Value),
      (findFieldsLoop r rest i loc1 ops).map fieldsOf =
        (findFieldsLoop r rest i loc2 ops).map fieldsOf := by
  intro rest
  induction rest with
  | nil =>
    intro i loc1 loc2 ops
    cases ops <;> simp [findFieldsLoop, assertObject, fieldsOf]
  | cons s rest ih =>
    intro i loc1 loc2 ops
    cases ops with
    | objs arr =>
      simp only [findFieldsLoop]
      cases arr.get? i with
      | none => rfl
      | some el => exact hr _ _ _
    | obj m => simp only [findFieldsLoop]; exact ih _ _ _ _
    | nilObj => simp only [findFieldsLoop]; exact ih _ _ _ _
    | null => simp only [findFieldsLoop]; exact ih _ _ _ _
    | bool b => simp only [findFieldsLoop]; exact ih _ _ _ _
    | num q => simp only [findFieldsLoop]; exact ih _ _ _ _
    | str t => simp only [findFieldsLoop]; exact ih _ _ _ _
    | slice xs => simp only [findFieldsLoop]; exact ih _ _ _ _
    | intMap m => simp only [findFieldsLoop]; exact ih _ _ _ _
    | upload u => simp only [findFieldsLoop]; exact ih _ _ _ _

theorem findFieldsFuel_loc (entryPaths : List String) :
    ∀ (fuel : Nat) (loc1 loc2 : List Step) (ops : Value),
      (findFieldsFuel fuel loc1 ops entryPaths).map fieldsOf =
        (findFieldsFuel fuel loc2 ops entryPaths).map fieldsOf := by
  intro fuel
  induction fuel with
  | zero => intro loc1 loc2 ops; simp [findFieldsFuel]
  | succ n ih =>
    intro loc1 loc2 ops
    simp only [findFieldsFuel]
    exact findFieldsLoop_loc _ (fun l1 l2 v => ih l1 l2 v) _ _ _ _ _

/-- The recursive call of `findFields`: when the walk over `entryPaths`
reaches a `[]map[string]interface{}` at index `i` and the slice has an element
`i`, `findFields` returns what it returns on that element with the whole of
`entryPaths`. -/
theorem findFields_restart (ops : Value) (entryPaths : List String) (i : Nat)
    (arr : List (List (String × Value))) (el : List (String × Value))
    (hw : walkTo ops entryPaths i = some (Value.objs arr)) (hlen : i < entryPaths.length)
    (hget : arr.get? i = some el) :
    findFields ops entryPaths = findFields (Value.obj el) entryPaths := by
  have hd1 := walkTo_arrayDepth i entryPaths ops _ hw
  have hd2 := arrayDepth_get arr i el hget
  have hd : (Value.obj el).arrayDepth < ops.arrayDepth := by
    simp only [Value.arrayDepth] at hd1 ⊢
    omega
  have h1 := findFieldsFuel_total ops entryPaths
  rw [findFieldsFuel] at h1
  obtain ⟨loc2, h2⟩ := findFieldsLoop_walkTo
    (fun l v => findFieldsFuel ops.arrayDepth l v entryPaths) arr el i entryPaths 0 [] ops hw hlen
    (by simpa using hget)
  rw [h2] at h1
  rw [findFieldsFuel_stable entryPaths loc2 _ _ hd] at h1
  have h3 := findFieldsFuel_loc entryPaths ((Value.obj el).arrayDepth + 1) loc2 [] (Value.obj el)
  rw [h1, findFieldsFuel_total] at h3
  simp only [Option.map_some', Option.some.injEq] at h3
  exact h3

/-! ## Maps and positions -/

theorem Object.get?_set (m : Object) (k x : String) (v : Value) :
    Object.get? (Object.set m k v) x = if k = x then some v else Object.get? m x := by
  induction m with
  | nil => simp [Object.set, Object.get?]
  | cons kv rest ih =>
    obtain ⟨k1, v1⟩ := kv
    by_cases h1 : k1 = k
    · subst h1
      by_cases h3 : k1 = x <;> simp [Object.set, Object.get?, h3]
    · by_cases h2 : k1 = x
      · subst h2
        simp [Object.set, Object.get?, h1, Ne.symm h1]
      · simp [Object.set, Object.get?, h1, h2, ih]

theorem findFieldsLoop_stuck (r : List Step → Value → Option (Except Panic (List Step × Value))) :
    ∀ (rest : List String) (i : Nat) (loc : List Step) (ops : Value), ops.isStuck = true →
      findFieldsLoop r rest i loc ops = some (.error Panic.typeAssertion) := by
  intro rest
  induction rest with
  | nil => intro i loc ops h; cases ops <;> simp_all [findFieldsLoop, assertObject, Value.isStuck]
  | cons s rest ih =>
    intro i loc ops h
    cases ops with
    | objs arr => simp [Value.isStuck] at h
    | obj m => simp [Value.isStuck] at h
    | nilObj => simp [Value.isStuck] at h
    | null => simp only [findFieldsLoop]; exact ih _ _ _ h
    | bool b => simp only [findFieldsLoop]; exact ih _ _ _ h
    | num q => simp only [findFieldsLoop]; exact ih _ _ _ h
    | str t => simp only [findFieldsLoop]; exact ih _ _ _ h
    | slice xs => simp only [findFieldsLoop]; exact ih _ _ _ h
    | intMap m => simp only [findFieldsLoop]; exact ih _ _ _ h
    | upload u => simp only [findFieldsLoop]; exact ih _ _ _ h

/-- Along nested objects the loop of `findFields` follows the keys. -/
theorem findFieldsLoop_getPath (r : List Step → Value → Option (Except Panic (List Step × Value)))
    (c : Object) :
    ∀ (segs : List String) (i : Nat) (loc : List Step) (ops : Value),
      ops.getPath segs = some (Value.obj c) →
      findFieldsLoop r segs i loc ops = some (.ok (loc ++ segs.map Step.key, Value.obj c)) := by
  intro segs
  induction segs with
  | nil =>
    intro i loc ops h
    simp only [Value.getPath, Option.some.injEq] at h
    subst h
    simp [findFieldsLoop, assertObject]
  | cons s rest ih =>
    intro i loc ops h
    cases ops with
    | obj m =>
      simp only [Value.getPath] at h
      cases hg : Object.get? m s with
      | none => rw [hg] at h; simp at h
      | some ch =>
        rw [hg] at h
        simp only [findFieldsLoop]
        have hidx : Object.index m s = ch := by simp [Object.index, hg]
        rw [hidx, ih (i + 1) (loc ++ [Step.key s]) ch h]
        simp
    | null => simp [Value.getPath] at h
    | bool b => simp [Value.getPath] at h
    | num q => simp [Value.getPath] at h
    | str t => simp [Value.getPath] at h
    | slice xs => simp [Value.getPath] at h
    | nilObj => simp [Value.getPath] at h
    | objs ms => simp [Value.getPath] at h
    | intMap m => simp [Value.getPath] at h
    | upload u => simp [Value.getPath] at h

/-- When every segment names a nested object, `findFields` returns the
object at the end of the path. -/
theorem findFieldsLoc_getPath (ops : Value) (segs : List String) (c : Object)
    (h : ops.getPath segs = some (Value.obj c)) :
    findFieldsLoc ops segs = .ok (segs.map Step.key, Value.obj c) := by
  have h1 := findFieldsFuel_total ops segs
  rw [findFieldsFuel, findFieldsLoop_getPath _ c segs 0 [] ops h] at h1
  simp only [List.nil_append, Option.some.injEq] at h1
  exact h1.symm

/-- Assigning into the object at the end of a path and reading the path
extended by the key gives the value assigned. -/
theorem getPath_assignAt_self (k : String) (v : Value) (c : Object) :
    ∀ (segs : List String) (ops : Value), ops.getPath segs = some (Value.obj c) →
      (assignAt ops (segs.map Step.key) k v).getPath (segs ++ [k]) = some v := by
  intro segs
  induction segs with
  | nil =>
    intro ops h
    simp only [Value.getPath, Option.some.injEq] at h
    subst h
    simp [assignAt, Value.getPath, Object.get?_set]
  | cons s rest ih =>
    intro ops h
    cases ops with
    | obj m =>
      simp only [Value.getPath] at h
      cases hg : Object.get? m s with
      | none => rw [hg] at h; simp at h
      | some ch =>
        rw [hg] at h
        simp only [List.map_cons, assignAt, hg, List.cons_append, Value.getPath, Object.get?_set,
          if_true]
        exact ih ch h
    | null => simp [Value.getPath] at h
    | bool b => simp [Value.getPath] at h
    | num q => simp [Value.getPath] at h
    | str t => simp [Value.getPath] at h
    | slice xs => simp [Value.getPath] at h
    | nilObj => simp [Value.getPath] at h
    | objs ms => simp [Value.getPath] at h
    | intMap m => simp [Value.getPath] at h
    | upload u => simp [Value.getPath] at h

/-- An assignment elsewhere leaves an upload where it is: if the position
assigned to is neither the path of the upload nor above it, the path still
reads the upload. -/
theorem getPath_assignAt_other (k : String) (v : Value) (u : GraphQLUpload) :
    ∀ (path : List String) (ops : Value) (loc : List Step),
      ops.getPath path = some (Value.upload u) →
      ¬ (loc ++ [Step.key k]) <+: path.map Step.key →
      (assignAt ops loc k v).getPath path = some (Value.upload u) := by
  intro path
  induction path with
  | nil =>
    intro ops loc h _
    simp only [Value.getPath, Option.some.injEq] at h
    subst h
    simp [assignAt, Value.getPath]
  | cons x xs ih =>
    intro ops loc h hn
    cases ops with
    | obj m =>
      simp only [Value.getPath] at h
      cases hg : Object.get? m x with
      | none => rw [hg] at h; simp at h
      | some ch =>
        rw [hg] at h
        replace h : ch.getPath xs = some (Value.upload u) := h
        cases loc with
        | nil =>
          have hk : k ≠ x := by
            intro hkx
            apply hn
            subst hkx
            simp [List.cons_prefix_cons]
          simp [assignAt, Value.getPath, Object.get?_set, hk, hg, h]
        | cons st rest =>
          cases st with
          | idx j => simp [assignAt, Value.getPath, hg, h]
          | key s =>
            simp only [assignAt]
            cases hs : Object.get? m s with
            | none => simp [Value.getPath, hg, h]
            | some c2 =>
              simp only [Value.getPath, Object.get?_set]
              by_cases hsx : s = x
              · subst hsx
                rw [hg] at hs
                simp only [Option.some.injEq] at hs
                subst hs
                simp only [if_true]
                apply ih ch rest h
                intro hp
                apply hn
                simp only [List.cons_append, List.map_cons, List.cons_prefix_cons, true_and]
                exact hp
              · simp [hsx, hg, h]
    | null => simp [Value.getPath] at h
    | bool b => simp [Value.getPath] at h
    | num q => simp [Value.getPath] at h
    | str t => simp [Value.getPath] at h
    | slice xs => simp [Value.getPath] at h
    | nilObj => simp [Value.getPath] at h
    | objs ms => simp [Value.getPath] at h
    | intMap m => simp [Value.getPath] at h
    | upload u2 => simp [Value.getPath] at h

/-! ## The position that findFields returns -/

theorem findFieldsLoop_prefix (r : List Step → Value → Option (Except Panic (List Step × Value)))
    (hr : ∀ l v L c, r l v = some (.ok (L, c)) → l <+: L) :
    ∀ (rest : List String) (i : Nat) (loc : List Step) (ops : Value) (L : List Step) (c : Value),
      findFieldsLoop r rest i loc ops = some (.ok (L, c)) → loc <+: L := by
  intro rest
  induction rest with
  | nil =>
    intro i loc ops L c h
    cases ops <;> simp [findFieldsLoop, assertObject] at h
    · rw [← h.1]
    · rw [← h.1]
  | cons s rest ih =>
    intro i loc ops L c h
    have happ : ∀ st : Step, loc ++ [st] <+: L → loc <+: L :=
      fun st hp => List.IsPrefix.trans (List.prefix_append loc [st]) hp
    cases ops with
    | objs arr =>
      simp only [findFieldsLoop] at h
      cases hget : arr.get? i with
      | none => rw [hget] at h; simp at h
      | some el =>
        rw [hget] at h
        exact happ _ (hr _ _ _ _ h)
    | obj m => simp only [findFieldsLoop] at h; exact happ _ (ih _ _ _ _ _ h)
    | nilObj => simp only [findFieldsLoop] at h; exact happ _ (ih _ _ _ _ _ h)
    | null => simp only [findFieldsLoop] at h; exact ih _ _ _ _ _ h
    | bool b => simp only [findFieldsLoop] at h; exact ih _ _ _ _ _ h
    | num q => simp only [findFieldsLoop] at h; exact ih _ _ _ _ _ h
    | str t => simp only [findFieldsLoop] at h; exact ih _ _ _ _ _ h
    | slice xs => simp only [findFieldsLoop] at h; exact ih _ _ _ _ _ h
    | intMap m => simp only [findFieldsLoop] at h; exact ih _ _ _ _ _ h
    | upload u => simp only [findFieldsLoop] at h; exact ih _ _ _ _ _ h

theorem findFieldsFuel_prefix (entryPaths : List String) :
    ∀ (fuel : Nat) (loc : List Step) (ops : Value) (L : List Step) (c : Value),
      findFieldsFuel fuel loc ops entryPaths = some (.ok (L, c)) → loc <+: L := by
  intro fuel
  induction fuel with
  | zero => intro loc ops L c h; simp [findFieldsFuel] at h
  | succ n ih =>
    intro loc ops L c h
    simp only [findFieldsFuel] at h
    exact findFieldsLoop_prefix _ (fun l v L c hl => ih l v L c hl) _ _ _ _ _ _ h

/-- The position returned by the loop is the position it started with
followed by the keys of the segments, unless a `[]map[string]interface{}` was
indexed on the way. -/
theorem findFieldsLoop_shape (r : List Step → Value → Option (Except Panic (List Step × Value)))
    (hr : ∀ l v L c, r l v = some (.ok (L, c)) → l <+: L) :
    ∀ (rest : List String) (i : Nat) (loc : List Step) (ops : Value) (L : List Step) (c : Value),
      findFieldsLoop r rest i loc ops = some (.ok (L, c)) →
      L = loc ++ rest.map Step.key ∨ ∃ j, Step.idx j ∈ L := by
  intro rest
  induction rest with
  | nil =>
    intro i loc ops L c h
    left
    cases ops <;> simp [findFieldsLoop, assertObject] at h
    · simp [h.1]
    · simp [h.1]
  | cons s rest ih =>
    intro i loc ops L c h
    cases ops with
    | objs arr =>
      simp only [findFieldsLoop] at h
      cases hget : arr.get? i with
      | none => rw [hget] at h; simp at h
      | some el =>
        rw [hget] at h
        right
        refine ⟨i, ?_⟩
        exact (hr _ _ _ _ h).subset (by simp)
    | obj m =>
      simp only [findFieldsLoop] at h
      rcases ih _ _ _ _ _ h with h1 | h1
      · left; simp [h1]
      · right; exact h1
    | nilObj =>
      simp only [findFieldsLoop] at h
      rcases ih _ _ _ _ _ h with h1 | h1
      · left; simp [h1]
      · right; exact h1
    | null => rw [findFieldsLoop_stuck r (s :: rest) i loc Value.null rfl] at h; simp at h
    | bool b => rw [findFieldsLoop_stuck r (s :: rest) i loc (Value.bool b) rfl] at h; simp at h
    | num q => rw [findFieldsLoop_stuck r (s :: rest) i loc (Value.num q) rfl] at h; simp at h
    | str t => rw [findFieldsLoop_stuck r (s :: rest) i loc (Value.str t) rfl] at h; simp at h
    | slice xs => rw [findFieldsLoop_stuck r (s :: rest) i loc (Value.slice xs) rfl] at h; simp at h
    | intMap m => rw [findFieldsLoop_stuck r (s :: rest) i loc (Value.intMap m) rfl] at h; simp at h
    | upload u => rw [findFieldsLoop_stuck r (s :: rest) i loc (Value.upload u) rfl] at h; simp at h

theorem findFieldsLoc_shape (ops : Value) (entryPaths : List String) (L : List Step) (c : Value)
    (h : findFieldsLoc ops entryPaths = .ok (L, c)) :
    L = entryPaths.map Step.key ∨ ∃ j, Step.idx j ∈ L := by
  have h1 := findFieldsFuel_total ops entryPaths
  rw [h, findFieldsFuel] at h1
  have h2 := findFieldsLoop_shape _
    (fun l v L c hl => findFieldsFuel_prefix entryPaths _ l v L c hl) _ _ _ _ _ _ h1
  simpa using h2

theorem map_key_prefix : ∀ (a b : List String), a.map Step.key <+: b.map Step.key → a <+: b := by
  intro a
  induction a with
  | nil => intro b _; exact List.nil_prefix
  | cons x xs ih =>
    intro b h
    cases b with
    | nil => simp at h
    | cons y ys =>
      simp only [List.map_cons, List.cons_prefix_cons, Step.key.injEq] at h
      rw [List.cons_prefix_cons]
      exact ⟨h.1, ih ys h.2⟩

/-- The position that `findFields` returns for the segments `qs`, extended by
a key `k`, is a path of keys at or above `path` only if `qs` followed by `k`
is a prefix of `path`. -/
theorem findFieldsLoc_not_above (ops : Value) (qs : List String) (k : String) (L : List Step)
    (c : Value) (path : List String) (h : findFieldsLoc ops qs = .ok (L, c))
    (hn : ¬ (qs ++ [k]) <+: path) : ¬ (L ++ [Step.key k]) <+: path.map Step.key := by
  intro hp
  rcases findFieldsLoc_shape ops qs L c h with h1 | ⟨j, hj⟩
  · subst h1
    apply hn
    apply map_key_prefix
    simpa using hp
  · have : Step.idx j ∈ path.map Step.key := hp.subset (by simp [hj])
    simp at this

/-! ## Decoding the map payload -/

theorem decodeStrings_err (j : JSON) : (decodeStrings j).2 = !acceptedPaths j := by
  cases j with
  | arr xs =>
    simp only [decodeStrings, acceptedPaths]
    induction xs with
    | nil => rfl
    | cons x rest ih =>
      simp only [List.any_cons, List.all_cons, ih]
      cases x <;> simp [decodeString]
  | null => rfl
  | bool b => rfl
  | num v => rfl
  | str s => rfl
  | obj kvs => rfl

theorem decodeEntries_err :
    ∀ (kvs : List (String × JSON)) (acc : Entries),
      (decodeEntries acc kvs).2 = !(kvs.all (fun kv => acceptedPaths kv.2)) := by
  intro kvs
  induction kvs with
  | nil => intro acc; rfl
  | cons kv rest ih =>
    intro acc
    obtain ⟨k, j⟩ := kv
    simp only [decodeEntries, ih, decodeStrings_err, List.all_cons]
    cases acceptedPaths j <;> simp

/-- The call `json.Unmarshal([]byte(m), &mapEntries)` returns an error exactly
when the text is not valid JSON or its value is not accepted. -/
theorem unmarshalMapEntries_err (lib : Lib) (m : String) (cur : Option Entries) :
    (unmarshalMapEntries lib m cur).2 =
      match lib.jsonParse m with
      | none => true
      | some j => !acceptedMap j := by
  unfold unmarshalMapEntries
  cases h : lib.jsonParse m with
  | none => rfl
  | some j =>
    cases j with
    | obj kvs => simp only [decodeEntries_err, acceptedMap]
    | null => rfl
    | bool b => rfl
    | num v => rfl
    | str s => rfl
    | arr xs => rfl

theorem unmarshalOperations_err (lib : Lib) (o : String) (cur : Value)
    (h : lib.jsonParse o = none) : (unmarshalOperations lib o cur).2 = true := by
  unfold unmarshalOperations
  rw [h]

/-! ## The workers between two turns of the loop -/

theorem finishWorkers_nil (os : OS) (st : MapState) :
    ∀ (order : List Nat), finishWorkers os order [] st = ([], st, none) := by
  intro order
  induction order with
  | nil => rfl
  | cons i rest ih => simp [finishWorkers, ih]

/-- With one worker running, it finishes in the gap exactly when the schedule
names its place. -/
theorem finishWorkers_single (os : OS) (w : fileData) (st : MapState) :
    ∀ (order : List Nat), finishWorkers os order [w] st =
      if 0 ∈ order then ([], (worker os w st).1, (worker os w st).2) else ([w], st, none) := by
  intro order
  induction order with
  | nil => rfl
  | cons i rest ih =>
    cases i with
    | zero =>
      simp only [finishWorkers, List.get?_cons_zero, List.mem_cons, true_or, if_true]
      cases hw : worker os w st with
      | mk st1 pn =>
        cases pn with
        | none => simp [finishWorkers_nil]
        | some p => simp
    | succ k =>
      simp only [finishWorkers, List.get?_cons_succ, List.get?_nil, List.mem_cons]
      rw [ih]
      simp

/-! ## mime.ParseMediaType: the loop ends, and what it returns -/

theorem trimLeft_length (v : List Char) : (trimLeft v).length ≤ v.length :=
  (List.dropWhile_sublist _).length_le

theorem consumeToken_length (v : List Char) : (consumeToken v).2.length ≤ v.length :=
  (List.dropWhile_sublist _).length_le

theorem consumeQuoted_length :
    ∀ (l acc : List Char) (pending : Bool) (r : List Char × List Char),
      consumeQuoted acc pending l = some r → r.2.length ≤ l.length := by
  intro l
  induction l with
  | nil => intro acc pending r h; simp [consumeQuoted] at h
  | cons c rest ih =>
    intro acc pending r h
    unfold consumeQuoted at h
    simp only [List.length_cons]
    split at h
    · split at h
      · exact Nat.le_succ_of_le (ih _ _ _ h)
      · split at h
        · simp at h
        · exact Nat.le_succ_of_le (ih _ _ _ h)
    · split at h
      · simp only [Option.some.injEq] at h
        rw [← h]
        exact Nat.le_succ _
      · split at h
        · exact Nat.le_succ_of_le (ih _ _ _ h)
        · split at h
          · simp at h
          · exact Nat.le_succ_of_le (ih _ _ _ h)

theorem consumeValue_length (v : List Char) : (consumeValue v).2.length ≤ v.length := by
  unfold consumeValue
  split
  · simp
  · rename_i c rest
    split
    · split
      · rename_i r hq
        have := consumeQuoted_length rest [] false r hq
        simp only [List.length_cons]
        omega
      · simp
    · exact consumeToken_length _

/-- A parameter that parses takes at least its semicolon from the text. -/
theorem consumeMediaParam_length (m : Mime) (v key value rest : List Char)
    (h : consumeMediaParam m v = some (key, value, rest)) : rest.length < v.length := by
  unfold consumeMediaParam at h
  have h0 := trimLeft_length v
  split at h
  · simp at h
  · rename_i c rest0 htrim
    rw [htrim] at h0
    simp only [List.length_cons] at h0
    split at h
    · have h1 := trimLeft_length rest0
      have h2 := consumeToken_length (trimLeft rest0)
      split at h
      · simp at h
      · rename_i param rest1 _ htok
        rw [htok] at h2
        simp only at h2
        have h3 := trimLeft_length rest1
        split at h
        · simp at h
        · rename_i e rest2 htrim2
          rw [htrim2] at h3
          simp only [List.length_cons] at h3
          split at h
          · have h4 := trimLeft_length rest2
            have h5 := consumeValue_length (trimLeft rest2)
            split at h
            · rename_i rest3 hval
              rw [hval] at h5
              simp only at h5
              split at h
              · simp at h
              · simp only [Option.some.injEq, Prod.mk.injEq] at h
                rw [← h.2.2]
                omega
            · rename_i value2 rest3 _ hval
              rw [hval] at h5
              simp only at h5
              simp only [Option.some.injEq, Prod.mk.injEq] at h
              rw [← h.2.2]
              omega
          · simp at h
    · simp at h

/-- The bound of `ParseMediaType` on the turns of its loop is never used up:
any larger bound gives the same media type. -/
theorem paramLoop_fuel (m : Mime) (mediatype : String) :
    ∀ (n : Nat) (v : List Char) (seen : List (List Char × List Char)) (f1 f2 : Nat),
      v.length ≤ n → v.length < f1 → v.length < f2 →
      paramLoop m mediatype f1 seen v = paramLoop m mediatype f2 seen v := by
  intro n
  induction n with
  | zero =>
    intro v seen f1 f2 hn h1 h2
    have hv : v = [] := List.length_eq_zero.mp (Nat.le_zero.mp hn)
    subst hv
    cases f1 with
    | zero => omega
    | succ a =>
      cases f2 with
      | zero => omega
      | succ b => simp [paramLoop, trimLeft]
  | succ k ih =>
    intro v seen f1 f2 hn h1 h2
    cases f1 with
    | zero => omega
    | succ a =>
      cases f2 with
      | zero => omega
      | succ b =>
        simp only [paramLoop]
        have h0 := trimLeft_length v
        split
        · rfl
        · rename_i c v1 htrim
          rw [htrim] at h0
          split
          · rfl
          · rename_i key value rest hcons
            have hlen := consumeMediaParam_length m _ key value rest hcons
            have e := ih rest ((key, value) :: seen) a b (by omega) (by omega) (by omega)
            split
            · split
              · exact e
              · rfl
            · exact e

theorem paramsFrom_fuel (m : Mime) :
    ∀ (n : Nat) (v : List Char) (f1 f2 : Nat),
      v.length ≤ n → v.length < f1 → v.length < f2 → paramsFrom m f1 v = paramsFrom m f2 v := by
  intro n
  induction n with
  | zero =>
    intro v f1 f2 hn h1 h2
    have hv : v = [] := List.length_eq_zero.mp (Nat.le_zero.mp hn)
    subst hv
    cases f1 with
    | zero => omega
    | succ a =>
      cases f2 with
      | zero => omega
      | succ b => simp [paramsFrom, trimLeft]
  | succ k ih =>
    intro v f1 f2 hn h1 h2
    cases f1 with
    | zero => omega
    | succ a =>
      cases f2 with
      | zero => omega
      | succ b =>
        simp only [paramsFrom]
        have h0 := trimLeft_length v
        split
        · rfl
        · rename_i c v1 htrim
          rw [htrim] at h0
          split
          · rfl
          · rename_i key value rest hcons
            have hlen := consumeMediaParam_length m _ key value rest hcons
            rw [ih rest a b (by omega) (by omega) (by omega)]

theorem paramGet?_none (key : List Char) :
    ∀ (seen : List (List Char × List Char)), paramGet? seen key = none →
      ∀ s ∈ seen, s.1 ≠ key := by
  intro seen
  induction seen with
  | nil => intro _ s hs; simp at hs
  | cons kv rest ih =>
    intro h s hs
    obtain ⟨k, v⟩ := kv
    unfold paramGet? at h
    split at h
    · simp at h
    · rename_i hk
      rcases List.mem_cons.mp hs with h1 | h1
      · rw [h1]; exact hk
      · exact ih h s h1

theorem paramGet?_some (key old : List Char) :
    ∀ (seen : List (List Char × List Char)), paramGet? seen key = some old →
      (key, old) ∈ seen := by
  intro seen
  induction seen with
  | nil => intro h; simp [paramGet?] at h
  | cons kv rest ih =>
    intro h
    obtain ⟨k, v⟩ := kv
    unfold paramGet? at h
    split at h
    · rename_i hk
      simp only [Option.some.injEq] at h
      rw [hk, h]
      exact List.mem_cons_self _ _
    · exact List.mem_cons_of_mem _ (ih h)

theorem paramLoop_result (m : Mime) (mediatype : String) :
    ∀ (fuel : Nat) (seen : List (List Char × List Char)) (v : List Char),
      paramLoop m mediatype fuel seen v = mediatype ∨ paramLoop m mediatype fuel seen v = "" := by
  intro fuel
  induction fuel with
  | zero => intro seen v; left; rfl
  | succ n ih =>
    intro seen v
    simp only [paramLoop]
    split
    · left; rfl
    · split
      · left; rfl
      · split
        · split
          · exact ih _ _
          · right; rfl
        · exact ih _ _

theorem paramsAgree_symm (m : Mime) : Symmetric (paramsAgree m) := by
  intro p q h
  rcases h with h | ⟨h1, h2⟩
  · exact Or.inl (Ne.symm h)
  · exact Or.inr ⟨h1, h2.symm⟩

/-- The loop returns the media type exactly when the parameters it reads
agree with each other and with the ones stored before. -/
theorem paramLoop_iff (m : Mime) (mediatype : String) (hm : mediatype ≠ "") :
    ∀ (fuel : Nat) (seen : List (List Char × List Char)) (v : List Char),
      seen.Pairwise (paramsAgree m) →
      (paramLoop m mediatype fuel seen v = mediatype ↔
        (paramsFrom m fuel v).Pairwise (paramsAgree m) ∧
          ∀ p ∈ paramsFrom m fuel v, ∀ s ∈ seen, paramsAgree m s p) := by
  intro fuel
  induction fuel with
  | zero => intro seen v _; simp [paramLoop, paramsFrom]
  | succ n ih =>
    intro seen v hseen
    simp only [paramLoop, paramsFrom]
    split
    · simp
    · rename_i c v1 htrim
      split
      · simp
      · rename_i key value rest hcons
        have step : (∀ s ∈ seen, paramsAgree m s (key, value)) →
            (paramLoop m mediatype n ((key, value) :: seen) rest = mediatype ↔
              ((key, value) :: paramsFrom m n rest).Pairwise (paramsAgree m) ∧
                ∀ p ∈ (key, value) :: paramsFrom m n rest, ∀ s ∈ seen, paramsAgree m s p) := by
          intro hall
          have hseen2 : ((key, value) :: seen).Pairwise (paramsAgree m) :=
            List.pairwise_cons.mpr ⟨fun s hs => paramsAgree_symm m (hall s hs), hseen⟩
          rw [ih ((key, value) :: seen) rest hseen2, List.pairwise_cons]
          constructor
          · rintro ⟨h1, h2⟩
            refine ⟨⟨fun p hp => h2 p hp _ (List.mem_cons_self _ _), h1⟩, ?_⟩
            intro p hp s hs
            rcases List.mem_cons.mp hp with hp1 | hp1
            · rw [hp1]; exact hall s hs
            · exact h2 p hp1 s (List.mem_cons_of_mem _ hs)
          · rintro ⟨⟨h1, h2⟩, h3⟩
            refine ⟨h2, ?_⟩
            intro p hp s hs
            rcases List.mem_cons.mp hs with hs1 | hs1
            · rw [hs1]; exact h1 p hp
            · exact h3 p (List.mem_cons_of_mem _ hp) s hs1
        split
        · rename_i old hget
          have hmem := paramGet?_some key old seen hget
          split
          · rename_i hdup
            apply step
            intro s hs
            by_cases hk : s.1 = key
            · right
              refine ⟨hdup.1, ?_⟩
              have hrefl : ∀ x ∈ seen, paramsAgree m x x := fun x _ => Or.inr ⟨hdup.1, rfl⟩
              have := List.Pairwise.forall_of_forall (paramsAgree_symm m) hrefl hseen hs hmem
              rcases this with h | ⟨_, h⟩
              · exact absurd hk h
              · rw [h]; exact hdup.2
            · exact Or.inl hk
          · rename_i hdup
            constructor
            · intro h; exact absurd h.symm hm
            · rintro ⟨_, h2⟩
              have := h2 (key, value) (List.mem_cons_self _ _) (key, old) hmem
              rcases this with h | ⟨h3, h4⟩
              · exact absurd rfl h
              · exact absurd ⟨h3, h4⟩ hdup
        · rename_i hget
          apply step
          intro s hs
          exact Or.inl (paramGet?_none key seen hget s hs)

theorem checkMediaTypeDisposition_form_data :
    checkMediaTypeDisposition "multipart/form-data".data = true := by
  decide

/-- What `mime.ParseMediaType` needs to return `multipart/form-data`: that
is the media type with the parameters ignored, and the parameters agree. -/
theorem ParseMediaType_form_data (m : Mime) (v : String) :
    ParseMediaType m v = "multipart/form-data" ↔
      mediaTypeOf m v = "multipart/form-data" ∧ (mediaParams m v).Pairwise (paramsAgree m) := by
  unfold ParseMediaType mediaTypeOf mediaParams
  simp only
  generalize trimSpace ((v.data.takeWhile (fun c => c ≠ ';')).map (lowerRune m)) = mt
  generalize v.data.dropWhile (fun c => c ≠ ';') = rest
  have hne : ("multipart/form-data" : String) ≠ "" := by decide
  by_cases hc : checkMediaTypeDisposition mt = true
  · rw [if_pos hc]
    constructor
    · intro h
      rcases paramLoop_result m (String.mk mt) (rest.length + 1) [] rest with h1 | h1
      · rw [h1] at h
        refine ⟨h, ?_⟩
        have := (paramLoop_iff m (String.mk mt) (by rw [h]; exact hne) (rest.length + 1) [] rest
          List.Pairwise.nil).mp h1
        exact this.1
      · rw [h1] at h
        exact absurd h.symm hne
    · rintro ⟨h1, h2⟩
      rw [← h1]
      apply (paramLoop_iff m (String.mk mt) (by rw [h1]; exact hne) (rest.length + 1) [] rest
        List.Pairwise.nil).mpr
      exact ⟨h2, by simp⟩
  · rw [if_neg hc]
    constructor
    · intro h; exact absurd h.symm hne
    · rintro ⟨h1, _⟩
      have : mt = "multipart/form-data".data := by
        have := congrArg String.data h1
        simpa using this
      rw [this] at hc
      exact absurd checkMediaTypeDisposition_form_data hc

theorem ParseMediaType_empty (m : Mime) : ParseMediaType m "" = "" := rfl

/-! ## C1: an uploaded file is stored at its path -/

/-- C1 on `deepRequest`, for every schedule of the workers.  The map sends
the key `file` to `variables.input.file`; the form has no value `file`, the
file part `file` exists and `variables` and `input` name nested objects.  The
map also sends the form value `title` to `variables.input.title`, and the
loop assigns it at `variables.input` (the defect of C2).  The payloads of
the request decode to `deepOperations` and `deepEntries`.  When `range` visits
`file` first, `mapOperations` returns and the string stands where the object
`input` was: no upload is stored at `variables.input.file`, whether the
worker finished before the assignment or after it.  When `range` visits
`title` first, `findFields` panics on the pair of `file` and `mapOperations`
does not return.  With the schedule of `exampleLib` the handler forwards the
document without the upload. -/
theorem mapOperations_upload_lost (schedule : Nat → List Nat) :
    isMiddlewareSupported exampleLib deepRequest = true ∧
    unmarshalOperations exampleLib (firstValue deepRequest.Form "operations")
      freshGlobals.operations = (deepOperations, false) ∧
    unmarshalMapEntries exampleLib (firstValue deepRequest.Form "map") freshGlobals.mapEntries =
      (some deepEntries, false) ∧
    tasks deepEntries =
      [("file", "variables.input.file"), ("title", "variables.input.title")] ∧
    Split "variables.input.file" = ["variables", "input", "file"] ∧
    firstValue deepRequest.Form "file" = "" ∧
    (deepRequest.FormFile "file").toOption.map (fun part => part.Filename) =
      some "middleware.go" ∧
    deepOperations.getPath ["variables", "input"] =
      some (Value.obj [("file", Value.null), ("title", Value.null)]) ∧
    (mapOperations exampleOS schedule deepEntries deepOperations deepRequest emptyFS).panic
      = none ∧
    (mapOperations exampleOS schedule deepEntries deepOperations deepRequest emptyFS).crash
      = none ∧
    (mapOperations exampleOS schedule deepEntries deepOperations deepRequest
      emptyFS).st.dropped = [] ∧
    (mapOperations exampleOS schedule deepEntries deepOperations deepRequest
      emptyFS).st.operations.getPath ["variables", "input"] =
        some (Value.str "my test title") ∧
    (mapOperations exampleOS schedule deepEntries deepOperations deepRequest
      emptyFS).st.operations.getPath ["variables", "input", "file"] = none ∧
    (mapOperations exampleOS schedule deepEntries.reverse deepOperations deepRequest
      emptyFS).panic = some Panic.typeAssertion ∧
    (Handler exampleLib exampleOS freshGlobals emptyFS emptyResponse deepRequest).next.isSome
      = true ∧
    (Handler exampleLib exampleOS freshGlobals emptyFS emptyResponse
      deepRequest).globals.operations.getPath ["variables", "input", "file"] = none := by
  have hrun : mapOperations exampleOS schedule deepEntries deepOperations deepRequest emptyFS =
      match finishWorkers exampleOS (schedule 0) [deepWorker] ⟨deepOperations, emptyFS, []⟩ with
      | (_, st2, some p) => { st := st2, panic := none, crash := some p }
      | (running2, st2, none) =>
        runLoop exampleOS schedule deepRequest 1 [("title", "variables.input.title")]
          running2 st2 := rfl
  have hrev : mapOperations exampleOS schedule deepEntries.reverse deepOperations deepRequest
      emptyFS =
      match finishWorkers exampleOS (schedule 0) []
        ⟨Value.obj [("variables", Value.obj [("input", Value.str "my test title")])],
          emptyFS, []⟩ with
      | (_, st2, some p) => { st := st2, panic := none, crash := some p }
      | (running2, st2, none) =>
        runLoop exampleOS schedule deepRequest 1 [("file", "variables.input.file")]
          running2 st2 := rfl
  refine ⟨by decide, rfl, rfl, by decide, by decide, by decide, by decide, rfl,
    ?_, ?_, ?_, ?_, ?_, ?_, by decide, rfl⟩
  case refine_6 => rw [hrev, finishWorkers_nil]; rfl
  all_goals
    rw [hrun, finishWorkers_single]
    by_cases h0 : 0 ∈ schedule 0
    · rw [if_pos h0]
      have h2 : runLoop exampleOS schedule deepRequest 1 [("title", "variables.input.title")] []
          (worker exampleOS deepWorker ⟨deepOperations, emptyFS, []⟩).1 =
          match finishWorkers exampleOS (schedule 1) []
            (mapEntry deepRequest "title" "variables.input.title"
              (worker exampleOS deepWorker ⟨deepOperations, emptyFS, []⟩).1).1 with
          | (_, st2, some p) => { st := st2, panic := none, crash := some p }
          | (running2, st2, none) => runLoop exampleOS schedule deepRequest 2 [] running2 st2 :=
        rfl
      have h3 : (worker exampleOS deepWorker ⟨deepOperations, emptyFS, []⟩).2 = none := rfl
      rw [h3]
      simp only
      rw [h2, finishWorkers_nil]
      rfl
    · rw [if_neg h0]
      simp only
      have h2 : runLoop exampleOS schedule deepRequest 1 [("title", "variables.input.title")]
          [deepWorker] ⟨deepOperations, emptyFS, []⟩ =
          match finishWorkers exampleOS (schedule 1) [deepWorker]
            (mapEntry deepRequest "title" "variables.input.title"
              ⟨deepOperations, emptyFS, []⟩).1 with
          | (_, st2, some p) => { st := st2, panic := none, crash := some p }
          | (running2, st2, none) => runLoop exampleOS schedule deepRequest 2 [] running2 st2 :=
        rfl
      rw [h2, finishWorkers_single]
      by_cases h1 : 0 ∈ schedule 1
      · rw [if_pos h1]
        rfl
      · rw [if_neg h1]
        rfl

/-! ## C2: a form value is assigned at the first two segments -/

/-- C2 at a path of three segments.  With the operations
`variables.input.title = null`, the map entry `title -> variables.input.title`
and the form value `title = "my test title"`, the handler forwards the
request, the string is stored at `variables.input`, in place of the object
that was there, and the path `variables.input.title` no longer leads to a
value. -/
theorem Handler_form_value_depth_three :
    (Handler exampleLib exampleOS freshGlobals emptyFS emptyResponse nestedTitleRequest).panic
      = none ∧
    (Handler exampleLib exampleOS freshGlobals emptyFS emptyResponse
      nestedTitleRequest).next.isSome = true ∧
    (unmarshalOperations exampleLib (firstValue nestedTitleRequest.Form "operations")
      freshGlobals.operations).1.getPath ["variables", "input"] =
        some (Value.obj [("title", Value.null)]) ∧
    (Handler exampleLib exampleOS freshGlobals emptyFS emptyResponse
      nestedTitleRequest).globals.operations.getPath ["variables", "input"] =
        some (Value.str "my test title") ∧
    (Handler exampleLib exampleOS freshGlobals emptyFS emptyResponse
      nestedTitleRequest).globals.operations.getPath ["variables", "input", "title"] = none :=
  ⟨by decide, by decide, rfl, rfl, rfl⟩

/-! ## C3: which requests the middleware handles -/

/-- C3, as stated, fails.  The request is a POST and the media type of its
Content-Type, with the parameters ignored, is `multipart/form-data`; the
parameter `a` comes twice, with two values, `mime.ParseMediaType` returns the
empty media type ("mime: duplicate parameter name") and
`isMiddlewareSupported` returns false.  On a release that rejects every
repeated name the same happens when the two values are equal. -/
theorem isMiddlewareSupported_duplicate_parameter :
    (headerRequest "multipart/form-data; a=1; a=2").Method = "POST" ∧
    mediaTypeOf exampleLib.mime "multipart/form-data; a=1; a=2" = "multipart/form-data" ∧
    ParseMediaType exampleLib.mime "multipart/form-data; a=1; a=2" = "" ∧
    isMiddlewareSupported exampleLib (headerRequest "multipart/form-data; a=1; a=2") = false ∧
    isMiddlewareSupported { exampleLib with mime := ⟨fun c => c, false⟩ }
      (headerRequest "multipart/form-data; a=1; a=1") = false :=
  ⟨by decide, by decide, by decide, by decide, by decide⟩

/-- C3, amended.  `isMiddlewareSupported` returns true exactly when the
method is POST, the media type of the Content-Type header with its parameters
ignored (the text before the first `;`, in lower case and without the blanks
around it) is `multipart/form-data`, and the parameters of the header agree:
no name comes twice with two values (on a release that rejects every repeated
name: no name comes twice).  It returns false for every other method, without
a Content-Type and for every other media type. -/
theorem isMiddlewareSupported_iff (lib : Lib) (r : Request) :
    (isMiddlewareSupported lib r = true ↔
      r.Method = "POST" ∧
        mediaTypeOf lib.mime (firstValue r.Header "Content-Type") = "multipart/form-data" ∧
        (mediaParams lib.mime (firstValue r.Header "Content-Type")).Pairwise
          (paramsAgree lib.mime)) ∧
    (r.Method ≠ "POST" → isMiddlewareSupported lib r = false) ∧
    (firstValue r.Header "Content-Type" = "" → isMiddlewareSupported lib r = false) ∧
    (mediaTypeOf lib.mime (firstValue r.Header "Content-Type") ≠ "multipart/form-data" →
      isMiddlewareSupported lib r = false) := by
  have hP := ParseMediaType_form_data lib.mime (firstValue r.Header "Content-Type")
  have hempty : firstValue r.Header "Content-Type" = "" →
      ParseMediaType lib.mime (firstValue r.Header "Content-Type") ≠ "multipart/form-data" := by
    intro h
    rw [h, ParseMediaType_empty]
    decide
  unfold isMiddlewareSupported
  by_cases h1 : r.Method = "POST"
  · by_cases h2 : firstValue r.Header "Content-Type" = ""
    · have h3 := hempty h2
      have h4 : ¬ (mediaTypeOf lib.mime (firstValue r.Header "Content-Type") =
          "multipart/form-data" ∧
          (mediaParams lib.mime (firstValue r.Header "Content-Type")).Pairwise
            (paramsAgree lib.mime)) := fun h => h3 (hP.mpr h)
      simp only [h1, h2, ne_eq, not_true_eq_false, if_false, true_or, if_true, true_and]
      rw [h2] at h4
      simp only [Bool.false_eq_true, false_iff, not_false_eq_true, implies_true, and_true]
      exact h4
    · by_cases h3 : ParseMediaType lib.mime (firstValue r.Header "Content-Type") =
          "multipart/form-data"
      · have h4 := hP.mp h3
        simp [h1, h2, h3, h4]
      · have h4 : ¬ (mediaTypeOf lib.mime (firstValue r.Header "Content-Type") =
            "multipart/form-data" ∧
            (mediaParams lib.mime (firstValue r.Header "Content-Type")).Pairwise
              (paramsAgree lib.mime)) := fun h => h3 (hP.mpr h)
        simp only [h1, h2, h3, ne_eq, not_true_eq_false, if_false, not_false_eq_true, or_true,
          if_true, true_and, Bool.false_eq_true, false_iff, implies_true, and_true]
        exact h4
  · simp [h1]

/-- The two tests of `isMiddlewareSupported` in `middleware_test.go`, a GET
request, a request without Content-Type, and a header in upper case with a
boundary. -/
theorem isMiddlewareSupported_tests :
    isMiddlewareSupported exampleLib (headerRequest "multipart/form-data") = true ∧
    isMiddlewareSupported exampleLib (headerRequest "application/json") = false ∧
    isMiddlewareSupported exampleLib
      ⟨"GET", [("Content-Type", "multipart/form-data")], [], [], ""⟩ = false ∧
    isMiddlewareSupported exampleLib ⟨"POST", [], [], [], ""⟩ = false ∧
    isMiddlewareSupported exampleLib (headerRequest " Multipart/Form-Data ; boundary=\"b;0\"")
      = true :=
  ⟨by decide, by decide, by decide, by decide, by decide⟩

/-! ## C4: malformed payloads -/

/-- C4, as stated, fails for a map that is valid JSON but not an object whose
values are arrays of strings: with the map `null`, and with a map whose only
value is `null`, the handler writes no status and calls the next handler. -/
theorem Handler_null_map_forwarded :
    isMiddlewareSupported exampleLib nullMapRequest = true ∧
    exampleLib.jsonParse (firstValue nullMapRequest.Form "map") = some JSON.null ∧
    (Handler exampleLib exampleOS freshGlobals emptyFS emptyResponse nullMapRequest).w.Status
      = none ∧
    (Handler exampleLib exampleOS freshGlobals emptyFS emptyResponse nullMapRequest).next.isSome
      = true ∧
    isMiddlewareSupported exampleLib nullValueRequest = true ∧
    exampleLib.jsonParse (firstValue nullValueRequest.Form "map") =
      some (JSON.obj [("file", JSON.null)]) ∧
    (Handler exampleLib exampleOS freshGlobals emptyFS emptyResponse nullValueRequest).w.Status
      = none ∧
    (Handler exampleLib exampleOS freshGlobals emptyFS emptyResponse nullValueRequest).next.isSome
      = true :=
  ⟨by decide, rfl, by decide, by decide, by decide, rfl, by decide, by decide⟩

/-- C4, amended.  For every eligible request in which the operations field or
the map field is not valid JSON, or in which the map field is valid JSON that
is neither `null` nor an object whose values are `null` or arrays of strings
and `null`s, the handler answers 400, writes the diagnostic of a payload that
failed (the operations when they failed, the map entries otherwise), does not
panic and does not call the next handler. -/
theorem Handler_malformed (lib : Lib) (os : OS) (g : Globals) (fs : FS) (w : Response)
    (r : Request) (helig : isMiddlewareSupported lib r = true)
    (hbad : lib.jsonParse (firstValue r.Form "operations") = none ∨
      lib.jsonParse (firstValue r.Form "map") = none ∨
      ∃ j, lib.jsonParse (firstValue r.Form "map") = some j ∧ acceptedMap j = false) :
    (Handler lib os g fs w r).w.Status = some 400 ∧
    (Handler lib os g fs w r).next = none ∧
    (Handler lib os g fs w r).panic = none ∧
    (((unmarshalOperations lib (firstValue r.Form "operations") g.operations).2 = true ∧
        (Handler lib os g fs w r).w.Body =
          w.Body ++ "Cannot unmarshal operations: malformed query" ++ "\n") ∨
      ((unmarshalOperations lib (firstValue r.Form "operations") g.operations).2 = false ∧
        (unmarshalMapEntries lib (firstValue r.Form "map") g.mapEntries).2 = true ∧
        (Handler lib os g fs w r).w.Body =
          w.Body ++ "Cannot unmarshal map entries: malformed query" ++ "\n")) := by
  unfold Handler
  simp only [helig, Bool.true_eq_false, if_false]
  cases hops : (unmarshalOperations lib (firstValue r.Form "operations") g.operations).2 with
  | true => simp [httpError]
  | false =>
    have hmap : (unmarshalMapEntries lib (firstValue r.Form "map") g.mapEntries).2 = true := by
      rw [unmarshalMapEntries_err]
      rcases hbad with h | h | ⟨j, h, hj⟩
      · rw [unmarshalOperations_err lib _ _ h] at hops
        simp at hops
      · rw [h]
      · rw [h]
        simp [hj]
    simp [hmap, httpError]

/-- The amended C4 on a request whose operations are valid and whose map is
not valid JSON. -/
theorem Handler_malformed_witness :
    (Handler exampleLib exampleOS freshGlobals emptyFS emptyResponse
      brokenMapRequest).w.Status = some 400 ∧
    (Handler exampleLib exampleOS freshGlobals emptyFS emptyResponse
      brokenMapRequest).next = none ∧
    (Handler exampleLib exampleOS freshGlobals emptyFS emptyResponse
      brokenMapRequest).panic = none ∧
    (((unmarshalOperations exampleLib
          (firstValue brokenMapRequest.Form
            "operations") freshGlobals.operations).2 = true ∧
        (Handler exampleLib exampleOS freshGlobals emptyFS emptyResponse
          brokenMapRequest).w.Body =
          emptyResponse.Body ++ "Cannot unmarshal operations: malformed query" ++ "\n") ∨
      ((unmarshalOperations exampleLib
          (firstValue brokenMapRequest.Form
            "operations") freshGlobals.operations).2 = false ∧
        (unmarshalMapEntries exampleLib
          (firstValue brokenMapRequest.Form "map")
          freshGlobals.mapEntries).2 = true ∧
        (Handler exampleLib exampleOS freshGlobals emptyFS emptyResponse
          brokenMapRequest).w.Body =
          emptyResponse.Body ++ "Cannot unmarshal map entries: malformed query" ++ "\n")) :=
  Handler_malformed exampleLib exampleOS freshGlobals emptyFS emptyResponse
    brokenMapRequest (by decide)
    (Or.inr (Or.inl rfl))

/-! ## C5: errors of the workers -/

/-- C5 at a map entry whose file part is missing.  The worker returns
the error of `FormFile`, the goroutine throws it away, and the handler writes
no error response: it forwards the document with `variables.file` still
`null`. -/
theorem Handler_missing_file_forwarded :
    isMiddlewareSupported exampleLib missingFileRequest = true ∧
    firstValue missingFileRequest.Form "file" = "" ∧
    (missingFileRequest.FormFile "file").toOption.isSome = false ∧
    (Handler exampleLib exampleOS freshGlobals emptyFS emptyResponse missingFileRequest).dropped =
      ["Could not access multipart file. Reason: http: no such file"] ∧
    (Handler exampleLib exampleOS freshGlobals emptyFS emptyResponse missingFileRequest).w.Status
      = none ∧
    (Handler exampleLib exampleOS freshGlobals emptyFS emptyResponse missingFileRequest).w.Body
      = "" ∧
    (Handler exampleLib exampleOS freshGlobals emptyFS emptyResponse
      missingFileRequest).next.isSome = true ∧
    (Handler exampleLib exampleOS freshGlobals emptyFS emptyResponse
      missingFileRequest).globals.operations.getPath ["variables", "file"] = some Value.null :=
  ⟨by decide, by decide, by decide, by decide, by decide, by decide, by decide, rfl⟩

/-! ## C6: the Upload scalar -/

/-- C6, as stated, fails: `UnmarshalGraphQL` returns nil for an empty
string-keyed object, for one that lacks `mimetype` and `filepath`, and for one
whose `filename` is not a string. -/
theorem UnmarshalGraphQL_accepts_any_object :
    (GraphQLUpload.UnmarshalGraphQL exampleLib ⟨"", "", ""⟩ (Value.obj [])).2 = none ∧
    (GraphQLUpload.UnmarshalGraphQL exampleLib ⟨"", "", ""⟩
      (Value.obj [("filename", Value.str "my-test.jpg")])).2 = none ∧
    (GraphQLUpload.UnmarshalGraphQL exampleLib ⟨"", "", ""⟩
      (Value.obj [("filename", Value.bool true), ("mimetype", Value.str "image/jpeg"),
        ("filepath", Value.str "/tmp/my-test.jpg")])).2 = none :=
  ⟨by decide, by decide, by decide⟩

/-- C6, amended.  `UnmarshalGraphQL(input)` returns nil exactly when `input`
is a string-keyed object, whatever its fields; for every other value it
returns the error "Cannot unmarshal received type as a GraphQLUpload type". -/
theorem UnmarshalGraphQL_error_iff (lib : Lib) (u : GraphQLUpload) (input : Value) :
    ((GraphQLUpload.UnmarshalGraphQL lib u input).2 = none ↔ input.isStringKeyed = true) ∧
    ((GraphQLUpload.UnmarshalGraphQL lib u input).2 = none ∨
      (GraphQLUpload.UnmarshalGraphQL lib u input).2 =
        some "Cannot unmarshal received type as a GraphQLUpload type") := by
  cases input with
  | obj m =>
    simp only [GraphQLUpload.UnmarshalGraphQL, Value.isStringKeyed]
    cases lib.jsonMarshalValue (Value.obj m) <;> simp
  | nilObj =>
    simp only [GraphQLUpload.UnmarshalGraphQL, Value.isStringKeyed]
    cases lib.jsonMarshalValue Value.nilObj <;> simp
  | null => simp [GraphQLUpload.UnmarshalGraphQL, Value.isStringKeyed]
  | bool b => simp [GraphQLUpload.UnmarshalGraphQL, Value.isStringKeyed]
  | num q => simp [GraphQLUpload.UnmarshalGraphQL, Value.isStringKeyed]
  | str s => simp [GraphQLUpload.UnmarshalGraphQL, Value.isStringKeyed]
  | slice xs => simp [GraphQLUpload.UnmarshalGraphQL, Value.isStringKeyed]
  | objs ms => simp [GraphQLUpload.UnmarshalGraphQL, Value.isStringKeyed]
  | intMap m => simp [GraphQLUpload.UnmarshalGraphQL, Value.isStringKeyed]
  | upload u2 => simp [GraphQLUpload.UnmarshalGraphQL, Value.isStringKeyed]

/-! ## C7: the Content-Type of the forwarded request -/

/-- C7 on the request of `TestHandlerWhenSuccess`.  The handler sets
`Content-Type: application/json` on the response writer; the request it
hands to the next handler has the new body and still the header
`Content-Type: multipart/form-data; boundary=b0`. -/
theorem Handler_request_content_type_kept :
    isMiddlewareSupported exampleLib testRequest = true ∧
    (Handler exampleLib exampleOS freshGlobals emptyFS emptyResponse testRequest).panic = none ∧
    firstValue (Handler exampleLib exampleOS freshGlobals emptyFS emptyResponse
      testRequest).w.Header "Content-Type" = "application/json" ∧
    (Handler exampleLib exampleOS freshGlobals emptyFS emptyResponse testRequest).next.map
      (fun r => firstValue r.Header "Content-Type") = some "multipart/form-data; boundary=b0" ∧
    (Handler exampleLib exampleOS freshGlobals emptyFS emptyResponse testRequest).next.map
      (fun r => r.Body) =
      exampleLib.jsonMarshal
        { Variables := rootIndex (Handler exampleLib exampleOS freshGlobals emptyFS emptyResponse
            testRequest).globals.operations "variables"
          Query := Value.str "mutation"
          Operations := (Handler exampleLib exampleOS freshGlobals emptyFS emptyResponse
            testRequest).globals.operations
          Map := some testEntries } :=
  ⟨by decide, by decide, by decide, by decide, rfl⟩

/-! ## C8: a path that is not in the operations -/

/-- C8 at a path whose first segment is missing from the operations.  For a
form value and for a file alike, the type assertion at the end of `findFields`
panics inside the handler: no status is written and nothing is forwarded. -/
theorem Handler_missing_path_panics :
    isMiddlewareSupported exampleLib missingPathRequest = true ∧
    (unmarshalOperations exampleLib (firstValue missingPathRequest.Form "operations")
      freshGlobals.operations).1.getPath ["variables"] = none ∧
    findFields (Value.obj [("query", Value.str "q")]) ["variables"] =
      .error Panic.typeAssertion ∧
    (Handler exampleLib exampleOS freshGlobals emptyFS emptyResponse missingPathRequest).panic =
      some Panic.typeAssertion ∧
    (Handler exampleLib exampleOS freshGlobals emptyFS emptyResponse missingPathRequest).w.Status
      = none ∧
    (Handler exampleLib exampleOS freshGlobals emptyFS emptyResponse missingPathRequest).next.isNone
      = true ∧
    (Handler exampleLib exampleOS freshGlobals emptyFS emptyResponse missingFilePathRequest).panic
      = some Panic.typeAssertion ∧
    (Handler exampleLib exampleOS freshGlobals emptyFS emptyResponse
      missingFilePathRequest).w.Status = none :=
  ⟨by decide, rfl, rfl, by decide, by decide, by decide, by decide, by decide⟩

/-! ## C9: findFields at an array of objects -/

/-- C9, as stated, fails.  On `arrayTree` with the one segment `a` the walk
reaches the slice at index 0.  Resolving the remaining segments (none) from
element 0 gives that element; `findFields` applies `a` to it again and
returns the object under `a`. -/
theorem findFields_restart_counterexample :
    walkTo arrayTree ["a"] 0 = some (Value.objs [[("a", Value.obj [("b", Value.null)])]]) ∧
    findFields (Value.obj [("a", Value.obj [("b", Value.null)])]) (["a"].drop (0 + 1)) =
      .ok (Value.obj [("a", Value.obj [("b", Value.null)])]) ∧
    findFields arrayTree ["a"] = .ok (Value.obj [("b", Value.null)]) ∧
    findFields arrayTree ["a"] ≠
      findFields (Value.obj [("a", Value.obj [("b", Value.null)])]) (["a"].drop (0 + 1)) := by
  refine ⟨rfl, rfl, rfl, ?_⟩
  rw [show findFields arrayTree ["a"] = .ok (Value.obj [("b", Value.null)]) from rfl,
    show findFields (Value.obj [("a", Value.obj [("b", Value.null)])]) (["a"].drop (0 + 1)) =
      .ok (Value.obj [("a", Value.obj [("b", Value.null)])]) from rfl]
  intro h
  injection h with h
  injection h with h
  simp at h

/-- C9, amended.  If the walk of `findFields` over `entryPaths` reaches a
`[]map[string]interface{}` at index `i`, with `i` inside `entryPaths` and
inside the slice, then `findFields` returns what it returns on element `i`
of the slice with the whole of `entryPaths`: the slice is indexed by the
position of the walk, and every segment from the first on is applied again to
that element. -/
theorem findFields_array_restarts (ops : Value) (entryPaths : List String) (i : Nat)
    (arr : List (List (String × Value))) (el : List (String × Value))
    (hw : walkTo ops entryPaths i = some (Value.objs arr)) (hlen : i < entryPaths.length)
    (hget : arr.get? i = some el) :
    findFields ops entryPaths = findFields (Value.obj el) entryPaths :=
  findFields_restart ops entryPaths i arr el hw hlen hget

/-- The amended C9 on `arrayTree`. -/
theorem findFields_array_restarts_witness :
    findFields arrayTree ["a"] =
      findFields (Value.obj [("a", Value.obj [("b", Value.null)])]) ["a"] :=
  findFields_array_restarts arrayTree ["a"] 0 [[("a", Value.obj [("b", Value.null)])]]
    [("a", Value.obj [("b", Value.null)])] rfl (by decide) rfl

/-! ## C10: the package variables outlive a request -/

/-- C10 on `plainRequest`, whose map is empty.  On a fresh process no map
entry is processed and the forwarded document has no variables.  After
`testRequest`, the same request processes the two map entries of
`testRequest` and forwards a document with the variables, the upload and the
map of `testRequest`. -/
theorem Handler_depends_on_history :
    (Handler exampleLib exampleOS freshGlobals emptyFS emptyResponse plainRequest).dropped = [] ∧
    (Handler exampleLib exampleOS freshGlobals emptyFS emptyResponse plainRequest).next.map
      (fun r => r.Body) =
      some "\x7b\"variables\":null,\"query\":\"q\",\"operations\":\x7b\"query\":\"q\"\x7d,\"map\":\x7b\x7d\x7d" ∧
    (Handler exampleLib exampleOS afterTest.globals afterTest.fs emptyResponse
      plainRequest).dropped.length = 2 ∧
    (Handler exampleLib exampleOS afterTest.globals afterTest.fs emptyResponse
      plainRequest).globals.mapEntries = some testEntries ∧
    (Handler exampleLib exampleOS afterTest.globals afterTest.fs emptyResponse
      plainRequest).globals.operations.getPath ["variables", "file"] =
      some (Value.upload ⟨"middleware.go", "application/octet-stream", "/tmp/graphqlupload-x.go"⟩) ∧
    (Handler exampleLib exampleOS afterTest.globals afterTest.fs emptyResponse
      plainRequest).next.map (fun r => r.Body) ≠
      (Handler exampleLib exampleOS freshGlobals emptyFS emptyResponse plainRequest).next.map
        (fun r => r.Body) :=
  ⟨by decide, by decide, by decide, by decide, rfl, by decide⟩

end Upload
